import Mathlib

/-!
Shallow embedding of the rasterization core of `Sketch.py`
(class `Sketch`): the scan-point generator `pointsOnLine`, the line
rasterizer `drawLine`, and the triangle rasterizer `drawTriangle`.

Modelling choices:
* Pixel coordinates are `ℤ` (Python ints); color channels are `ℚ`
  (exact stand-in for Python floats).
* `drawLine` is modelled by the ordered list of `Point`s it passes to
  `drawPoint` (the write trace); `pointsOnLine` returns
  `Option (List Point)`, `none` modelling the `ZeroDivisionError` that
  the Python code raises at `t = (i - l_x) / dx` when `dx == 0` in
  smooth mode (`pointsOnLine` lacks the `if dx == 0: t = 1` guard that
  `drawLine` has).
* `drawTriangle` is modelled by a trace of draw operations
  (`DrawOp.point` for a `drawPoint` call, `DrawOp.line a b` for a
  `drawLine(buff, a, b)` call, which in the source uses the default
  `doSmooth=True`).  Its recursion is modelled with explicit fuel;
  `TriResult.exn` models a Python exception and `TriResult.stuck`
  models fuel exhaustion (which never occurs with fuel 2, matching the
  bounded recursion of the source).
-/

/-- `ColorType` of `ColorType.py`: an RGB triple. -/
structure ColorType where
  r : ℚ
  g : ℚ
  b : ℚ
deriving DecidableEq, Repr

/-- `Point` of `Point.py` as used by the rasterizer: integer coords and a color. -/
structure Point where
  x : ℤ
  y : ℤ
  c : ColorType
deriving DecidableEq, Repr

/-- Channel-wise linear interpolation, the lerp of `Sketch.py` lines 327-331:
`r = t_inv * l_c.r + t * r_c.r` and likewise for `g` and `b`. -/
def lerp (lc rc : ColorType) (t : ℚ) : ColorType :=
  ⟨(1 - t) * lc.r + t * rc.r, (1 - t) * lc.g + t * rc.g, (1 - t) * lc.b + t * rc.b⟩

/-- Build the emitted point from the major/minor loop coordinates.
In the shallow branch the loop variable `i` is x and `j` is y
(`Point([i, j], color)` with `i` the major coordinate); in the steep
branch the loop variable `j` is y (major) and `i` is x (minor), and the
source also emits `Point([i, j], color)`. -/
def mkPt (steep : Bool) (m n : ℤ) (c : ColorType) : Point :=
  if steep then ⟨n, m, c⟩ else ⟨m, n, c⟩

/-- The shared Bresenham loop body of `drawLine` / `pointsOnLine`
(`Sketch.py` lines 319-342, 383-402, 454-474, 514-533): starting at
major coordinate `m` and minor coordinate `n`, emit `s` points; after
each emission, if `D > 0` the minor coordinate moves by `ji` and
`D += dd` (`dy2dx2`), otherwise `D += d2` (`dy2`).  The color of the
point emitted at major coordinate `m` is `cAt m`. -/
def bresLoop (steep : Bool) (cAt : ℤ → ColorType) (ji d2 dd : ℤ) :
    Nat → ℤ → ℤ → ℤ → List Point
  | 0, _, _, _ => []
  | s + 1, m, n, D =>
      mkPt steep m n (cAt m) ::
        (if 0 < D then bresLoop steep cAt ji d2 dd s (m + 1) (n + ji) (D + dd)
         else bresLoop steep cAt ji d2 dd s (m + 1) n (D + d2))

/-- One reordered branch of the Bresenham rasterizers.  `lM, lN` are the
"left" endpoint's major/minor coordinates, `dMaj = r_major - l_major ≥ 0`,
`dMin0 = r_minor - l_minor` (signed; the source folds its sign into
`ji`/`ii` and negates it).  `d2`, `dd` and the initial `D` are the
source's `dy2`, `dy2dx2` and `D0 = dy2 - dx` (resp. `dx2`, `dx2dy2`,
`dx2 - dy`).  `guardZero` is true only for `drawLine`'s shallow branch,
which guards `dx == 0` with `t = 1` (lines 322-325); `pointsOnLine` has
no such guard.  `flatc` is the flat-shading color, always the first
caller-supplied endpoint's color (`color = p1_c`). -/
def bresRun (steep doSmooth guardZero : Bool) (flatc lc rc : ColorType)
    (lM lN dMaj dMin0 : ℤ) : List Point :=
  bresLoop steep
    (fun m => if doSmooth then
        lerp lc rc
          (if guardZero ∧ dMaj = 0 then 1 else ((m - lM : ℤ) : ℚ) / ((dMaj : ℤ) : ℚ))
      else flatc)
    (if dMin0 < 0 then -1 else 1)
    ((if dMin0 < 0 then -dMin0 else dMin0) * 2)
    ((if dMin0 < 0 then -dMin0 else dMin0) * 2 - dMaj * 2)
    (dMaj.toNat + 1) lM lN
    ((if dMin0 < 0 then -dMin0 else dMin0) * 2 - dMaj)

/-- `Sketch.pointsOnLine` (`Sketch.py` lines 408-534).  Shallow when
`abs(p2_y - p1_y) <= abs(p2_x - p1_x)`; endpoints are reordered along
the dominant axis.  In the shallow smooth case the source computes
`t = (i - l_x) / dx` with no `dx == 0` guard, so a zero-length shallow
segment raises `ZeroDivisionError`: modelled as `none`. -/
def pointsOnLine (p1 p2 : Point) (doSmooth : Bool) : Option (List Point) :=
  if (p2.y - p1.y).natAbs ≤ (p2.x - p1.x).natAbs then
    if p1.x < p2.x then
      if doSmooth ∧ p2.x - p1.x = 0 then none
      else some (bresRun false doSmooth false p1.c p1.c p2.c p1.x p1.y
        (p2.x - p1.x) (p2.y - p1.y))
    else
      if doSmooth ∧ p1.x - p2.x = 0 then none
      else some (bresRun false doSmooth false p1.c p2.c p1.c p2.x p2.y
        (p1.x - p2.x) (p1.y - p2.y))
  else
    if p1.y < p2.y then
      some (bresRun true doSmooth false p1.c p1.c p2.c p1.y p1.x
        (p2.y - p1.y) (p2.x - p1.x))
    else
      some (bresRun true doSmooth false p1.c p2.c p1.c p2.y p2.x
        (p1.y - p2.y) (p1.x - p2.x))

/-- `Sketch.drawLine` (`Sketch.py` lines 254-403), as the ordered list of
points written to the framebuffer.  Identical to `pointsOnLine` except
that the shallow smooth branch guards `dx == 0` with `t = 1`, so it is
total. -/
def drawLine (p1 p2 : Point) (doSmooth : Bool) : List Point :=
  if (p2.y - p1.y).natAbs ≤ (p2.x - p1.x).natAbs then
    if p1.x < p2.x then
      bresRun false doSmooth true p1.c p1.c p2.c p1.x p1.y (p2.x - p1.x) (p2.y - p1.y)
    else
      bresRun false doSmooth true p1.c p2.c p1.c p2.x p2.y (p1.x - p2.x) (p1.y - p2.y)
  else
    if p1.y < p2.y then
      bresRun true doSmooth false p1.c p1.c p2.c p1.y p1.x (p2.y - p1.y) (p2.x - p1.x)
    else
      bresRun true doSmooth false p1.c p2.c p1.c p2.y p2.x (p1.y - p2.y) (p1.x - p2.x)

/-- One draw operation issued by `drawTriangle`: a `drawPoint` call or a
`drawLine(buff, a, b)` call (the source's filling call uses the default
`doSmooth=True`). -/
inductive DrawOp where
  | point : Point → DrawOp
  | line : Point → Point → DrawOp
deriving DecidableEq, Repr

/-- Result of a `drawTriangle` call: the trace of draw operations, a
Python exception (`exn`), or fuel exhaustion (`stuck`; not a behavior of
the source, only of the fuelled model). -/
inductive TriResult where
  | ok : List DrawOp → TriResult
  | exn : TriResult
  | stuck : TriResult
deriving DecidableEq, Repr

/-- Sequencing of the two recursive `drawTriangle` calls of the split
branch: traces concatenate; an exception in the first call prevents the
second (`Sketch.py` lines 605-606, 619-620, 633-634). -/
def seqTri : TriResult → TriResult → TriResult
  | .ok t1, .ok t2 => .ok (t1 ++ t2)
  | .ok _, .exn => .exn
  | .ok _, .stuck => .stuck
  | .exn, _ => .exn
  | .stuck, _ => .stuck

/-- Flat-shading normalization (`Sketch.py` lines 572-574): when
`doSmooth` is false, `p2.setColor(p1.getColor())` overwrites the color
of the other two vertices with the first vertex's color. -/
def normP (base q : Point) (doSmooth : Bool) : Point :=
  if doSmooth then q else { q with c := base.c }

/-- Vertex classification of `Sketch.py` lines 578-589: pick the flat
pair `(v1, v2)` and the apex `v3` when two vertices share a
y-coordinate. -/
def selectFlat (p1 p2 p3 : Point) : Option (Point × Point × Point) :=
  if p1.y = p2.y then some (p1, p2, p3)
  else if p2.y = p3.y then some (p2, p3, p1)
  else if p3.y = p1.y then some (p3, p1, p2)
  else none

/-- The split-point search loop of `Sketch.py` lines 595-608 (and its
two clones): scan the edge's point list; while the current point has
the same y as its successor, skip it; otherwise return it if its y
matches the target; running past the end is an `IndexError` (`none`). -/
def splitScan (t : ℤ) : List Point → Option Point
  | [] => none
  | [p] => if p.y = t then some p else none
  | p :: q :: l =>
      if p.y = q.y then splitScan t (q :: l)
      else if p.y = t then some p else splitScan t (q :: l)

/-- Head-of-run test used by the dual-edge walk (`Sketch.py` lines
654-663): the current point exists and has the same y as the next point
of the same sequence. -/
def headRunHit (p : Point) : List Point → Bool
  | q :: _ => p.y == q.y
  | [] => false

/-- The dual-edge scanline walk of `Sketch.py` lines 645-671: while both
sequences are nonempty, a duplicate-y current point of `line1` (then of
`line2`) is plotted alone and only that sequence advances; otherwise one
filling line is drawn between the two current points and both advance. -/
def walk : List Point → List Point → List DrawOp
  | [], _ => []
  | _ :: _, [] => []
  | a :: l1, b :: l2 =>
      if headRunHit a l1 then .point a :: walk l1 (b :: l2)
      else if headRunHit b l2 then .point b :: walk (a :: l1) l2
      else .line a b :: walk l1 l2
termination_by l1 l2 => l1.length + l2.length
decreasing_by all_goals simp_arith

/-- The sequence-alignment fixup of `Sketch.py` lines 643-644: if the
two edge lists start at different y, reverse the second one. -/
def adjustSnd (l1 l2 : List Point) : List Point :=
  match l1, l2 with
  | a :: _, b :: _ => if a.y ≠ b.y then l2.reverse else l2
  | _, _ => l2

/-- `Sketch.drawTriangle` (`Sketch.py` lines 536-671) with explicit
recursion fuel.  Flat-shading normalization, flat-pair selection, the
three middle-vertex split branches (whose edge is materialized with
`pointsOnLine(..., True)`), and the dual-edge walk.  The final `.exn`
of the split chain models the `NameError` Python would raise on
falling through with `v1` unbound (unreachable), and the `.exn` under
the flat path models the `IndexError` of `line1[0]` on an empty list
(also unreachable since `pointsOnLine` never returns an empty list). -/
def drawTriangleFuel : Nat → Point → Point → Point → Bool → TriResult
  | 0, _, _, _, _ => .stuck
  | f + 1, p1, q2, q3, doSmooth =>
    let p2 := normP p1 q2 doSmooth
    let p3 := normP p1 q3 doSmooth
    match selectFlat p1 p2 p3 with
    | some (v1, v2, v3) =>
      match pointsOnLine v3 v1 doSmooth, pointsOnLine v3 v2 doSmooth with
      | some line1, some line2 =>
        (match line1, line2 with
         | a :: t1, b :: t2 => .ok (walk (a :: t1) (adjustSnd (a :: t1) (b :: t2)))
         | _, _ => .exn)
      | _, _ => .exn
    | none =>
      if (p2.y < p1.y ∧ p1.y < p3.y) ∨ (p1.y < p2.y ∧ p3.y < p1.y) then
        match pointsOnLine p2 p3 true with
        | some line =>
          (match splitScan p1.y line with
           | some q => seqTri (drawTriangleFuel f p1 p2 q doSmooth)
                              (drawTriangleFuel f p1 p3 q doSmooth)
           | none => .exn)
        | none => .exn
      else if (p1.y < p2.y ∧ p2.y < p3.y) ∨ (p2.y < p1.y ∧ p3.y < p2.y) then
        match pointsOnLine p1 p3 true with
        | some line =>
          (match splitScan p2.y line with
           | some q => seqTri (drawTriangleFuel f p1 p2 q doSmooth)
                              (drawTriangleFuel f p2 p3 q doSmooth)
           | none => .exn)
        | none => .exn
      else if (p1.y < p3.y ∧ p3.y < p2.y) ∨ (p3.y < p1.y ∧ p2.y < p3.y) then
        match pointsOnLine p1 p2 true with
        | some line =>
          (match splitScan p3.y line with
           | some q => seqTri (drawTriangleFuel f p1 p3 q doSmooth)
                              (drawTriangleFuel f p3 p2 q doSmooth)
           | none => .exn)
        | none => .exn
      else .exn

/-- `Sketch.drawTriangle`.  Fuel 2 is exact: every recursive call of the
split branch has two vertices sharing a y-coordinate (the found split
point's y equals the middle vertex's y), so it takes the flat-pair path
and recurses no further. -/
def drawTriangle (p1 p2 p3 : Point) (doSmooth : Bool) : TriResult :=
  drawTriangleFuel 2 p1 p2 p3 doSmooth

/-- Major coordinate of an emitted point (x if shallow, y if steep). -/
def majorOf (steep : Bool) (p : Point) : ℤ := if steep then p.y else p.x

/-- Minor coordinate of an emitted point (y if shallow, x if steep). -/
def minorOf (steep : Bool) (p : Point) : ℤ := if steep then p.x else p.y

/-- The y-levels at which the walk issues filling lines, keyed by the
first (left-sequence) endpoint of each `drawLine` call. -/
def lineYs (tr : List DrawOp) : List ℤ :=
  tr.filterMap (fun op => match op with | .line a _ => some a.y | _ => none)

/-- `a` occurs in `l` at the end of a duplicate-y run: what follows it is
empty or starts at a different y. -/
def lastOfRun (l : List Point) (a : Point) : Prop :=
  ∃ pre post, l = pre ++ a :: post ∧ ∀ q, post.head? = some q → q.y ≠ a.y

/-- Convert a (major, minor) pair of a Bresenham branch into (x, y). -/
def xyPair (st : Bool) (m n : ℤ) : ℤ × ℤ := if st then (n, m) else (m, n)

/-! ## Basic facts about the shared Bresenham loop -/

lemma majorOf_mkPt (steep : Bool) (m n : ℤ) (c : ColorType) :
    majorOf steep (mkPt steep m n c) = m := by
  cases steep <;> simp [majorOf, mkPt]

lemma minorOf_mkPt (steep : Bool) (m n : ℤ) (c : ColorType) :
    minorOf steep (mkPt steep m n c) = n := by
  cases steep <;> simp [minorOf, mkPt]

lemma c_mkPt (steep : Bool) (m n : ℤ) (c : ColorType) : (mkPt steep m n c).c = c := by
  cases steep <;> simp [mkPt]

lemma y_mkPt (steep : Bool) (m n : ℤ) (c : ColorType) :
    (mkPt steep m n c).y = if steep then m else n := by
  cases steep <;> simp [mkPt]

lemma bresLoop_length (steep : Bool) (cAt : ℤ → ColorType) (ji d2 dd : ℤ) :
    ∀ (s : Nat) (m n D : ℤ), (bresLoop steep cAt ji d2 dd s m n D).length = s := by
  intro s
  induction s with
  | zero => intro m n D; rfl
  | succ s ih =>
      intro m n D
      simp only [bresLoop, List.length_cons]
      split <;> rw [ih]

lemma bresLoop_ne_nil (steep : Bool) (cAt : ℤ → ColorType) (ji d2 dd : ℤ)
    (s : Nat) (m n D : ℤ) : bresLoop steep cAt ji d2 dd (s + 1) m n D ≠ [] := by
  intro h
  have := bresLoop_length steep cAt ji d2 dd (s + 1) m n D
  rw [h] at this
  simp at this

lemma bresLoop_head (steep : Bool) (cAt : ℤ → ColorType) (ji d2 dd : ℤ)
    (s : Nat) (m n D : ℤ) :
    (bresLoop steep cAt ji d2 dd (s + 1) m n D).head? = some (mkPt steep m n (cAt m)) := by
  simp only [bresLoop]
  split <;> rfl

lemma bresLoop_mem (steep : Bool) (cAt : ℤ → ColorType) (ji d2 dd : ℤ) :
    ∀ (s : Nat) (m n D : ℤ) (p : Point), p ∈ bresLoop steep cAt ji d2 dd s m n D →
      ∃ k : ℤ, 0 ≤ k ∧ k < (s : ℤ) ∧ ∃ nn, p = mkPt steep (m + k) nn (cAt (m + k)) := by
  intro s
  induction s with
  | zero => intro m n D p hp; simp [bresLoop] at hp
  | succ s ih =>
      intro m n D p hp
      simp only [bresLoop] at hp
      rcases List.mem_cons.mp hp with h | h
      · exact ⟨0, le_refl 0, by push_cast; omega, n, by simpa using h⟩
      · split at h <;>
          · obtain ⟨k, hk0, hks, nn, hp'⟩ := ih _ _ _ p h
            refine ⟨k + 1, by omega, by push_cast at hks ⊢; omega, nn, ?_⟩
            have hmk : m + 1 + k = m + (k + 1) := by ring
            rw [hp', hmk]

lemma bresLoop_major_cover (steep : Bool) (cAt : ℤ → ColorType) (ji d2 dd : ℤ) :
    ∀ (s : Nat) (m n D : ℤ) (k : ℤ), 0 ≤ k → k < (s : ℤ) →
      ∃ p ∈ bresLoop steep cAt ji d2 dd s m n D, majorOf steep p = m + k := by
  intro s
  induction s with
  | zero => intro m n D k hk0 hks; exact absurd hks (by push_cast; omega)
  | succ s ih =>
      intro m n D k hk0 hks
      simp only [bresLoop]
      rcases eq_or_lt_of_le hk0 with h0 | h0
      · exact ⟨mkPt steep m n (cAt m), List.mem_cons_self _ _,
          by rw [majorOf_mkPt, ← h0, add_zero]⟩
      · have hks' : k - 1 < (s : ℤ) := by push_cast at hks ⊢; omega
        split
        · obtain ⟨p, hp, hM⟩ := ih (m + 1) (n + ji) (D + dd) (k - 1) (by omega) hks'
          exact ⟨p, List.mem_cons_of_mem _ hp, by rw [hM]; ring⟩
        · obtain ⟨p, hp, hM⟩ := ih (m + 1) n (D + d2) (k - 1) (by omega) hks'
          exact ⟨p, List.mem_cons_of_mem _ hp, by rw [hM]; ring⟩

lemma bresLoop_chain (steep : Bool) (cAt : ℤ → ColorType) (ji d2 dd : ℤ) :
    ∀ (s : Nat) (m n D : ℤ),
      List.Chain' (fun p q => majorOf steep q = majorOf steep p + 1 ∧
          (minorOf steep q = minorOf steep p ∨ minorOf steep q = minorOf steep p + ji))
        (bresLoop steep cAt ji d2 dd s m n D) := by
  intro s
  induction s with
  | zero => intro m n D; simp [bresLoop]
  | succ s ih =>
      intro m n D
      simp only [bresLoop]
      split <;>
        · refine List.chain'_cons'.mpr ⟨?_, ih _ _ _⟩
          intro q hq
          cases s with
          | zero => simp [bresLoop] at hq
          | succ s' =>
              rw [bresLoop_head] at hq
              cases Option.some.inj hq
              refine ⟨by rw [majorOf_mkPt, majorOf_mkPt], ?_⟩
              rw [minorOf_mkPt, minorOf_mkPt]
              first
              | exact Or.inr rfl
              | exact Or.inl rfl

lemma bresLoop_color_irrel (steep : Bool) (cAt cAt' : ℤ → ColorType) (ji d2 dd : ℤ)
    (hc : ∀ m, cAt m = cAt' m) :
    ∀ (s : Nat) (m n D : ℤ),
      bresLoop steep cAt ji d2 dd s m n D = bresLoop steep cAt' ji d2 dd s m n D := by
  intro s
  induction s with
  | zero => intro m n D; rfl
  | succ s ih =>
      intro m n D
      simp only [bresLoop, hc]
      split <;> rw [ih]

/-! ## The Bresenham error-accumulator invariant

At the state with `s` emissions remaining, `rem` minor-axis moves
remaining, and accumulator `D`, the source's update discipline keeps
`D = 2*dmaj*rem - 2*dmin*(s - 2) - dmaj` with
`2*dmin - 2*dmaj + 1 ≤ D ≤ 2*dmin`; at the last emission this forces
`rem = 0`, which is why the loop lands exactly on the right endpoint
and never makes more than `dmin` minor moves. -/

lemma bresLoop_succ_eq (steep : Bool) (cAt : ℤ → ColorType) (ji d2 dd : ℤ)
    (s : Nat) (m n D : ℤ) :
    bresLoop steep cAt ji d2 dd (s + 1) m n D =
      mkPt steep m n (cAt m) ::
        (if 0 < D then bresLoop steep cAt ji d2 dd s (m + 1) (n + ji) (D + dd)
         else bresLoop steep cAt ji d2 dd s (m + 1) n (D + d2)) := rfl

lemma getLast?_cons_tail {α : Type} (a : α) (l : List α) (h : l ≠ []) :
    (a :: l).getLast? = l.getLast? := by
  cases l with
  | nil => exact absurd rfl h
  | cons b t => exact List.getLast?_cons_cons

lemma bresLoop_minor_cover (steep : Bool) (cAt : ℤ → ColorType) (ji dmin dmaj d2 dd : ℤ)
    (h0 : 0 ≤ dmin) (hle : dmin ≤ dmaj) (h1 : 1 ≤ dmaj)
    (hd2 : d2 = 2 * dmin) (hdd : dd = 2 * dmin - 2 * dmaj) :
    ∀ (s : Nat) (m n D rem : ℤ), 1 ≤ s →
      D = 2 * dmaj * rem - 2 * dmin * ((s : ℤ) - 2) - dmaj →
      2 * dmin - 2 * dmaj + 1 ≤ D → D ≤ 2 * dmin → 0 ≤ rem →
      ∀ u : ℤ, 0 ≤ u → u ≤ rem →
        ∃ p ∈ bresLoop steep cAt ji d2 dd s m n D,
          minorOf steep p = n + ji * u := by
  subst hd2
  subst hdd
  intro s
  induction s with
  | zero =>
      intro m n D rem hs
      exact absurd hs (by omega)
  | succ s ih =>
      intro m n D rem _ hD hlb hub hrem u hu0 hur
      rcases Nat.eq_zero_or_pos s with rfl | hs
      · -- a single emission remains: the invariant forces rem = 0
        have hc : (((0 : Nat) + 1 : Nat) : ℤ) = 1 := rfl
        rw [hc] at hD
        have hrem0 : rem = 0 := by
          by_contra hcne
          have h1r : 1 ≤ rem := by omega
          have hmul := mul_le_mul_of_nonneg_left h1r (show (0:ℤ) ≤ 2 * dmaj by linarith)
          linarith
        have hu : u = 0 := by omega
        refine ⟨mkPt steep m n (cAt m), ?_, ?_⟩
        · simp [bresLoop]
        · rw [minorOf_mkPt, hu]; ring
      · have hcast : (((s : Nat) + 1 : Nat) : ℤ) - 2 = (s : ℤ) - 1 := by push_cast; ring
        have hD' : D = 2 * dmaj * rem - 2 * dmin * ((s : ℤ) - 1) - dmaj := by
          rw [hD]; rw [show ((s + 1 : Nat) : ℤ) = (s : ℤ) + 1 by push_cast; ring]; ring
        simp only [bresLoop]
        by_cases hD0 : 0 < D
        · rw [if_pos hD0]
          rcases eq_or_lt_of_le hu0 with h0u | h0u
          · exact ⟨mkPt steep m n (cAt m), List.mem_cons_self _ _,
              by rw [minorOf_mkPt, ← h0u]; ring⟩
          · have hrec := ih (m + 1) (n + ji) (D + (2 * dmin - 2 * dmaj)) (rem - 1)
              (by omega)
              (by rw [hD']; ring)
              (by omega) (by omega) (by omega)
              (u - 1) (by omega) (by omega)
            obtain ⟨p, hp, hmin⟩ := hrec
            exact ⟨p, List.mem_cons_of_mem _ hp, by rw [hmin]; ring⟩
        · rw [if_neg hD0]
          have hrec := ih (m + 1) n (D + 2 * dmin) rem
            (by omega)
            (by rw [hD']; ring)
            (by omega) (by omega) hrem u hu0 hur
          obtain ⟨p, hp, hmin⟩ := hrec
          exact ⟨p, List.mem_cons_of_mem _ hp, hmin⟩

lemma bresLoop_last (steep : Bool) (cAt : ℤ → ColorType) (ji dmin dmaj d2 dd : ℤ)
    (h0 : 0 ≤ dmin) (hle : dmin ≤ dmaj) (h1 : 1 ≤ dmaj)
    (hd2 : d2 = 2 * dmin) (hdd : dd = 2 * dmin - 2 * dmaj) :
    ∀ (s : Nat) (m n D rem : ℤ), 1 ≤ s →
      D = 2 * dmaj * rem - 2 * dmin * ((s : ℤ) - 2) - dmaj →
      2 * dmin - 2 * dmaj + 1 ≤ D → D ≤ 2 * dmin → 0 ≤ rem →
      (bresLoop steep cAt ji d2 dd s m n D).getLast?
        = some (mkPt steep (m + (s : ℤ) - 1) (n + ji * rem) (cAt (m + (s : ℤ) - 1))) := by
  subst hd2
  subst hdd
  intro s
  induction s with
  | zero => intro m n D rem hs; exact absurd hs (by omega)
  | succ s ih =>
      intro m n D rem _ hD hlb hub hrem
      rcases Nat.eq_zero_or_pos s with rfl | hs
      · have hc : (((0 : Nat) + 1 : Nat) : ℤ) = 1 := rfl
        rw [hc] at hD ⊢
        have hrem0 : rem = 0 := by
          by_contra hcne
          have h1r : 1 ≤ rem := by omega
          have hmul := mul_le_mul_of_nonneg_left h1r (show (0:ℤ) ≤ 2 * dmaj by linarith)
          linarith
        subst hrem0
        have hlist : bresLoop steep cAt ji (2 * dmin) (2 * dmin - 2 * dmaj) 1 m n D
            = [mkPt steep m n (cAt m)] := by simp [bresLoop]
        rw [hlist]
        simp
      · have hszc : ((s + 1 : Nat) : ℤ) = (s : ℤ) + 1 := by push_cast; ring
        have hD' : D = 2 * dmaj * rem - 2 * dmin * ((s : ℤ) - 1) - dmaj := by
          rw [hD, hszc]; ring
        have hsz : (1:ℤ) ≤ (s : ℤ) := by exact_mod_cast hs
        obtain ⟨s', rfl⟩ : ∃ s', s = s' + 1 := ⟨s - 1, by omega⟩
        rw [bresLoop_succ_eq]
        by_cases hD0 : 0 < D
        · rw [if_pos hD0]
          have hrem1 : 1 ≤ rem := by
            by_contra hcne
            have hrem0 : rem = 0 := by omega
            subst hrem0
            have hmn : (0:ℤ) ≤ 2 * dmin * (((s' + 1 : Nat) : ℤ) - 1) := by
              apply mul_nonneg (by linarith)
              push_cast; omega
            nlinarith
          rw [getLast?_cons_tail _ _ (bresLoop_ne_nil _ _ _ _ _ _ _ _ _)]
          have e1 : m + ((s' + 1 + 1 : Nat) : ℤ) - 1 = (m + 1) + ((s' + 1 : Nat) : ℤ) - 1 := by
            push_cast; ring
          have e2 : n + ji * rem = (n + ji) + ji * (rem - 1) := by ring
          rw [e1, e2]
          exact ih (m + 1) (n + ji) (D + (2 * dmin - 2 * dmaj)) (rem - 1)
            (by omega) (by rw [hD']; push_cast; ring) (by omega) (by omega) (by omega)
        · rw [if_neg hD0]
          rw [getLast?_cons_tail _ _ (bresLoop_ne_nil _ _ _ _ _ _ _ _ _)]
          have e1 : m + ((s' + 1 + 1 : Nat) : ℤ) - 1 = (m + 1) + ((s' + 1 : Nat) : ℤ) - 1 := by
            push_cast; ring
          rw [e1]
          exact ih (m + 1) n (D + 2 * dmin) rem
            (by omega) (by rw [hD']; push_cast; ring) (by omega) (by omega) hrem

/-! ## Facts about a single reordered Bresenham branch -/

lemma bresRun_length (st ds g : Bool) (fc lc rc : ColorType) (lM lN dMaj dMin0 : ℤ) :
    (bresRun st ds g fc lc rc lM lN dMaj dMin0).length = dMaj.toNat + 1 :=
  bresLoop_length _ _ _ _ _ _ _ _ _

lemma bresRun_ne_nil (st ds g : Bool) (fc lc rc : ColorType) (lM lN dMaj dMin0 : ℤ) :
    bresRun st ds g fc lc rc lM lN dMaj dMin0 ≠ [] :=
  bresLoop_ne_nil _ _ _ _ _ _ _ _ _

lemma bresRun_head (st ds g : Bool) (fc lc rc : ColorType) (lM lN dMaj dMin0 : ℤ) :
    ∃ c, (bresRun st ds g fc lc rc lM lN dMaj dMin0).head? = some (mkPt st lM lN c) :=
  ⟨_, bresLoop_head _ _ _ _ _ _ _ _ _⟩

lemma bresRun_chain (st ds g : Bool) (fc lc rc : ColorType) (lM lN dMaj dMin0 : ℤ) :
    List.Chain' (fun p q => majorOf st q = majorOf st p + 1 ∧
        (minorOf st q = minorOf st p ∨
          minorOf st q = minorOf st p + (if dMin0 < 0 then -1 else 1)))
      (bresRun st ds g fc lc rc lM lN dMaj dMin0) :=
  bresLoop_chain _ _ _ _ _ _ _ _ _

lemma bresRun_mem (st ds g : Bool) (fc lc rc : ColorType) (lM lN dMaj dMin0 : ℤ)
    (h0 : 0 ≤ dMaj) (p : Point) (hp : p ∈ bresRun st ds g fc lc rc lM lN dMaj dMin0) :
    ∃ k : ℤ, 0 ≤ k ∧ k ≤ dMaj ∧ ∃ nn : ℤ,
      p = mkPt st (lM + k) nn
        (if ds then
          lerp lc rc (if g ∧ dMaj = 0 then 1 else ((k : ℤ) : ℚ) / ((dMaj : ℤ) : ℚ))
         else fc) := by
  obtain ⟨k, hk0, hks, nn, hpe⟩ := bresLoop_mem _ _ _ _ _ _ _ _ _ p hp
  refine ⟨k, hk0, ?_, nn, ?_⟩
  · push_cast [Int.toNat_of_nonneg h0] at hks
    omega
  · rw [hpe]
    have e : lM + k - lM = k := by ring
    simp only [e]

lemma bresRun_major_cover (st ds g : Bool) (fc lc rc : ColorType) (lM lN dMaj dMin0 : ℤ)
    (h0 : 0 ≤ dMaj) (k : ℤ) (hk0 : 0 ≤ k) (hks : k ≤ dMaj) :
    ∃ p ∈ bresRun st ds g fc lc rc lM lN dMaj dMin0, majorOf st p = lM + k := by
  apply bresLoop_major_cover _ _ _ _ _ _ _ _ _ k hk0
  push_cast [Int.toNat_of_nonneg h0]
  omega

lemma bresRun_minor_cover (st ds g : Bool) (fc lc rc : ColorType) (lM lN dMaj dMin0 : ℤ)
    (hub : dMin0 ≤ dMaj) (hlb : -dMaj ≤ dMin0) (t : ℤ)
    (ht : (lN ≤ t ∧ t ≤ lN + dMin0) ∨ (lN + dMin0 ≤ t ∧ t ≤ lN)) :
    ∃ p ∈ bresRun st ds g fc lc rc lM lN dMaj dMin0, minorOf st p = t := by
  by_cases hz : dMaj = 0
  · have htl : t = lN := by omega
    obtain ⟨c, hc⟩ := bresRun_head st ds g fc lc rc lM lN dMaj dMin0
    exact ⟨mkPt st lM lN c, List.mem_of_mem_head? hc, by rw [minorOf_mkPt, htl]⟩
  · have h1 : 1 ≤ dMaj := by omega
    have hcast : ((dMaj.toNat + 1 : Nat) : ℤ) = dMaj + 1 := by
      push_cast [Int.toNat_of_nonneg (by omega : (0:ℤ) ≤ dMaj)]; ring
    rcases lt_or_ge dMin0 0 with hneg | hpos
    · have key := bresLoop_minor_cover st
        (fun m => if ds then
            lerp lc rc
              (if g ∧ dMaj = 0 then 1 else ((m - lM : ℤ) : ℚ) / ((dMaj : ℤ) : ℚ))
          else fc)
        (-1) (-dMin0) dMaj ((-dMin0) * 2) ((-dMin0) * 2 - dMaj * 2)
        (by omega) (by omega) h1 (by ring) (by ring)
        (dMaj.toNat + 1) lM lN ((-dMin0) * 2 - dMaj) (-dMin0)
        (by omega) (by rw [hcast]; ring) (by omega) (by omega) (by omega)
        (lN - t) (by omega) (by omega)
      simp only [bresRun, if_pos hneg]
      obtain ⟨p, hp, hmin⟩ := key
      exact ⟨p, hp, by rw [hmin]; ring⟩
    · have key := bresLoop_minor_cover st
        (fun m => if ds then
            lerp lc rc
              (if g ∧ dMaj = 0 then 1 else ((m - lM : ℤ) : ℚ) / ((dMaj : ℤ) : ℚ))
          else fc)
        1 dMin0 dMaj (dMin0 * 2) (dMin0 * 2 - dMaj * 2)
        (by omega) (by omega) h1 (by ring) (by ring)
        (dMaj.toNat + 1) lM lN (dMin0 * 2 - dMaj) dMin0
        (by omega) (by rw [hcast]; ring) (by omega) (by omega) (by omega)
        (t - lN) (by omega) (by omega)
      simp only [bresRun, if_neg (by omega : ¬ dMin0 < 0)]
      obtain ⟨p, hp, hmin⟩ := key
      exact ⟨p, hp, by rw [hmin]; ring⟩

lemma bresRun_last (st ds g : Bool) (fc lc rc : ColorType) (lM lN dMaj dMin0 : ℤ)
    (hub : dMin0 ≤ dMaj) (hlb : -dMaj ≤ dMin0) :
    ∃ c, (bresRun st ds g fc lc rc lM lN dMaj dMin0).getLast?
      = some (mkPt st (lM + dMaj) (lN + dMin0) c) := by
  by_cases hz : dMaj = 0
  · have hm0 : dMin0 = 0 := by omega
    obtain ⟨c, hc⟩ := bresRun_head st ds g fc lc rc lM lN dMaj dMin0
    have hlen : (bresRun st ds g fc lc rc lM lN dMaj dMin0).length = 1 := by
      rw [bresRun_length, hz]; rfl
    obtain ⟨p, hp⟩ := List.length_eq_one.mp hlen
    rw [hp] at hc ⊢
    have hpc : p = mkPt st lM lN c := by simpa using hc
    refine ⟨c, ?_⟩
    rw [hpc, hz, hm0]
    simp
  · have h1 : 1 ≤ dMaj := by omega
    have hcast : ((dMaj.toNat + 1 : Nat) : ℤ) = dMaj + 1 := by
      push_cast [Int.toNat_of_nonneg (by omega : (0:ℤ) ≤ dMaj)]; ring
    rcases lt_or_ge dMin0 0 with hneg | hpos
    · have key := bresLoop_last st
        (fun m => if ds then
            lerp lc rc
              (if g ∧ dMaj = 0 then 1 else ((m - lM : ℤ) : ℚ) / ((dMaj : ℤ) : ℚ))
          else fc)
        (-1) (-dMin0) dMaj ((-dMin0) * 2) ((-dMin0) * 2 - dMaj * 2)
        (by omega) (by omega) h1 (by ring) (by ring)
        (dMaj.toNat + 1) lM lN ((-dMin0) * 2 - dMaj) (-dMin0)
        (by omega) (by rw [hcast]; ring) (by omega) (by omega) (by omega)
      simp only [bresRun, if_pos hneg]
      rw [hcast] at key
      have e1 : lM + (dMaj + 1) - 1 = lM + dMaj := by ring
      rw [e1] at key
      have e2 : lN + -1 * -dMin0 = lN + dMin0 := by ring
      rw [e2] at key
      exact ⟨_, key⟩
    · have key := bresLoop_last st
        (fun m => if ds then
            lerp lc rc
              (if g ∧ dMaj = 0 then 1 else ((m - lM : ℤ) : ℚ) / ((dMaj : ℤ) : ℚ))
          else fc)
        1 dMin0 dMaj (dMin0 * 2) (dMin0 * 2 - dMaj * 2)
        (by omega) (by omega) h1 (by ring) (by ring)
        (dMaj.toNat + 1) lM lN (dMin0 * 2 - dMaj) dMin0
        (by omega) (by rw [hcast]; ring) (by omega) (by omega) (by omega)
      simp only [bresRun, if_neg (by omega : ¬ dMin0 < 0)]
      rw [hcast] at key
      have e1 : lM + (dMaj + 1) - 1 = lM + dMaj := by ring
      rw [e1] at key
      have e2 : lN + 1 * dMin0 = lN + dMin0 := by ring
      rw [e2] at key
      exact ⟨_, key⟩

/-! ## Facts about the scan-point generator -/

lemma pointsOnLine_some (p1 p2 : Point) (ds : Bool)
    (h : ds = true → ¬(p1.x = p2.x ∧ p1.y = p2.y)) :
    ∃ l, pointsOnLine p1 p2 ds = some l ∧ l ≠ [] := by
  unfold pointsOnLine
  split_ifs with hsh hx hg hg' hy
  · exact absurd hg.2 (by omega)
  · exact ⟨_, rfl, bresRun_ne_nil _ _ _ _ _ _ _ _ _ _⟩
  · exact absurd ⟨by omega, by omega⟩ (h hg'.1)
  · exact ⟨_, rfl, bresRun_ne_nil _ _ _ _ _ _ _ _ _ _⟩
  · exact ⟨_, rfl, bresRun_ne_nil _ _ _ _ _ _ _ _ _ _⟩
  · exact ⟨_, rfl, bresRun_ne_nil _ _ _ _ _ _ _ _ _ _⟩

lemma pointsOnLine_some_ne_nil (p1 p2 : Point) (ds : Bool) (l : List Point)
    (h : pointsOnLine p1 p2 ds = some l) : l ≠ [] := by
  unfold pointsOnLine at h
  split_ifs at h <;> exact (Option.some.inj h) ▸ bresRun_ne_nil _ _ _ _ _ _ _ _ _ _

lemma pointsOnLine_inv (p1 p2 : Point) (ds : Bool) (l : List Point)
    (h : pointsOnLine p1 p2 ds = some l) :
    ∃ (st : Bool) (lc rc : ColorType) (lM lN dMaj dMin0 : ℤ),
      l = bresRun st ds false p1.c lc rc lM lN dMaj dMin0 ∧
      0 ≤ dMaj ∧ dMin0 ≤ dMaj ∧ -dMaj ≤ dMin0 ∧
      (ds = true → 1 ≤ dMaj) ∧
      ((lc = p1.c ∧ rc = p2.c) ∨ (lc = p2.c ∧ rc = p1.c)) ∧
      ((xyPair st lM lN = (p1.x, p1.y) ∧
          xyPair st (lM + dMaj) (lN + dMin0) = (p2.x, p2.y)) ∨
       (xyPair st lM lN = (p2.x, p2.y) ∧
          xyPair st (lM + dMaj) (lN + dMin0) = (p1.x, p1.y))) ∧
      (st = false ↔ (p2.y - p1.y).natAbs ≤ (p2.x - p1.x).natAbs) := by
  unfold pointsOnLine at h
  split_ifs at h with hsh hx hg hg' hy
  · refine ⟨false, p1.c, p2.c, p1.x, p1.y, p2.x - p1.x, p2.y - p1.y,
      (Option.some.inj h).symm, by omega, by omega, by omega, fun _ => by omega,
      Or.inl ⟨rfl, rfl⟩, Or.inl ⟨?_, ?_⟩, iff_of_true rfl hsh⟩
    · simp [xyPair]
    · simp only [xyPair, if_neg Bool.false_ne_true, Prod.mk.injEq]
      constructor <;> ring
  · refine ⟨false, p2.c, p1.c, p2.x, p2.y, p1.x - p2.x, p1.y - p2.y,
      (Option.some.inj h).symm, by omega, by omega, by omega,
      fun hds => by simp only [hds, true_and] at hg'; omega,
      Or.inr ⟨rfl, rfl⟩, Or.inr ⟨?_, ?_⟩, iff_of_true rfl hsh⟩
    · simp [xyPair]
    · simp only [xyPair, if_neg Bool.false_ne_true, Prod.mk.injEq]
      constructor <;> ring
  · refine ⟨true, p1.c, p2.c, p1.y, p1.x, p2.y - p1.y, p2.x - p1.x,
      (Option.some.inj h).symm, by omega, by omega, by omega, fun _ => by omega,
      Or.inl ⟨rfl, rfl⟩, Or.inl ⟨?_, ?_⟩, iff_of_false (by simp) hsh⟩
    · simp [xyPair]
    · simp only [xyPair, eq_self_iff_true, if_true, Prod.mk.injEq]
      constructor <;> ring
  · refine ⟨true, p2.c, p1.c, p2.y, p2.x, p1.y - p2.y, p1.x - p2.x,
      (Option.some.inj h).symm, by omega, by omega, by omega, fun _ => by omega,
      Or.inr ⟨rfl, rfl⟩, Or.inr ⟨?_, ?_⟩, iff_of_false (by simp) hsh⟩
    · simp [xyPair]
    · simp only [xyPair, eq_self_iff_true, if_true, Prod.mk.injEq]
      constructor <;> ring

lemma mem_of_getLast?_eq {α : Type} {l : List α} {a : α} (h : l.getLast? = some a) :
    a ∈ l := by
  obtain ⟨hne, he⟩ := List.mem_getLast?_eq_getLast (show a ∈ l.getLast? from h)
  rw [he]
  exact List.getLast_mem hne

lemma pointsOnLine_flat_colors (p1 p2 : Point) (l : List Point)
    (h : pointsOnLine p1 p2 false = some l) : ∀ q ∈ l, q.c = p1.c := by
  obtain ⟨st, lc, rc, lM, lN, dMaj, dMin0, hl, h0, -, -, -, -, -, -⟩ :=
    pointsOnLine_inv _ _ _ _ h
  intro q hq
  rw [hl] at hq
  obtain ⟨k, -, -, nn, hq'⟩ := bresRun_mem _ _ _ _ _ _ _ _ _ _ h0 q hq
  rw [hq', c_mkPt]
  simp

lemma drawLine_flat_colors (p1 p2 : Point) : ∀ q ∈ drawLine p1 p2 false, q.c = p1.c := by
  intro q hq
  unfold drawLine at hq
  split_ifs at hq with hsh hx hy <;>
    · obtain ⟨k, -, -, nn, hq'⟩ := bresRun_mem _ _ _ _ _ _ _ _ _ _ (by omega) q hq
      rw [hq', c_mkPt]
      simp

lemma pointsOnLine_smooth_form (p1 p2 : Point) (l : List Point)
    (h : pointsOnLine p1 p2 true = some l) :
    ∀ q ∈ l, ∃ t : ℚ, 0 ≤ t ∧ t ≤ 1 ∧
      (q.c = lerp p1.c p2.c t ∨ q.c = lerp p2.c p1.c t) := by
  obtain ⟨st, lc, rc, lM, lN, dMaj, dMin0, hl, h0, -, -, h1, hcol, -, -⟩ :=
    pointsOnLine_inv _ _ _ _ h
  have hd1 : 1 ≤ dMaj := h1 rfl
  intro q hq
  rw [hl] at hq
  obtain ⟨k, hk0, hkd, nn, hq'⟩ := bresRun_mem _ _ _ _ _ _ _ _ _ _ h0 q hq
  have ht0 : (0:ℚ) ≤ ((k:ℤ):ℚ) / ((dMaj:ℤ):ℚ) := by
    apply div_nonneg
    · exact_mod_cast hk0
    · exact_mod_cast (by omega : (0:ℤ) ≤ dMaj)
  have ht1 : ((k:ℤ):ℚ) / ((dMaj:ℤ):ℚ) ≤ 1 := by
    rw [div_le_one (by exact_mod_cast (by omega : (0:ℤ) < dMaj))]
    exact_mod_cast hkd
  have hcq : q.c = lerp lc rc (((k:ℤ):ℚ) / ((dMaj:ℤ):ℚ)) := by
    rw [hq', c_mkPt]
    simp
  refine ⟨((k:ℤ):ℚ) / ((dMaj:ℤ):ℚ), ht0, ht1, ?_⟩
  rcases hcol with ⟨hlc, hrc⟩ | ⟨hlc, hrc⟩
  · subst hlc; subst hrc; exact Or.inl hcq
  · subst hlc; subst hrc; exact Or.inr hcq

lemma lerp_channel_bounds (a b t : ℚ) (h0 : 0 ≤ t) (h1 : t ≤ 1) :
    min a b ≤ (1 - t) * a + t * b ∧ (1 - t) * a + t * b ≤ max a b := by
  constructor
  · rcases le_total a b with hab | hab
    · rw [min_eq_left hab]; nlinarith
    · rw [min_eq_right hab]; nlinarith
  · rcases le_total a b with hab | hab
    · rw [max_eq_right hab]; nlinarith
    · rw [max_eq_left hab]; nlinarith

lemma pointsOnLine_y_cover (p1 p2 : Point) (ds : Bool) (l : List Point)
    (h : pointsOnLine p1 p2 ds = some l) (t : ℤ)
    (ht : (p1.y ≤ t ∧ t ≤ p2.y) ∨ (p2.y ≤ t ∧ t ≤ p1.y)) :
    ∃ q ∈ l, q.y = t := by
  obtain ⟨st, lc, rc, lM, lN, dMaj, dMin0, hl, h0, hub, hlb, -, -, hxy, -⟩ :=
    pointsOnLine_inv _ _ _ _ h
  subst hl
  cases st with
  | false =>
      simp [xyPair, Prod.mk.injEq] at hxy
      obtain ⟨q, hq, hmq⟩ := bresRun_minor_cover false ds false p1.c lc rc lM lN dMaj dMin0
        hub hlb t (by rcases hxy with ⟨h1, h2⟩ | ⟨h1, h2⟩ <;> omega)
      refine ⟨q, hq, ?_⟩
      simpa [minorOf] using hmq
  | true =>
      simp [xyPair, Prod.mk.injEq] at hxy
      obtain ⟨q, hq, hmq⟩ := bresRun_major_cover true ds false p1.c lc rc lM lN dMaj dMin0
        h0 (t - lM)
        (by rcases hxy with ⟨h1, h2⟩ | ⟨h1, h2⟩ <;> omega)
        (by rcases hxy with ⟨h1, h2⟩ | ⟨h1, h2⟩ <;> omega)
      refine ⟨q, hq, ?_⟩
      simp only [majorOf, if_true] at hmq
      omega

lemma pointsOnLine_ends (p1 p2 : Point) (ds : Bool) (l : List Point)
    (h : pointsOnLine p1 p2 ds = some l) :
    ∃ a b, l.head? = some a ∧ l.getLast? = some b ∧
      ((a.x = p1.x ∧ a.y = p1.y ∧ b.x = p2.x ∧ b.y = p2.y) ∨
       (a.x = p2.x ∧ a.y = p2.y ∧ b.x = p1.x ∧ b.y = p1.y)) := by
  obtain ⟨st, lc, rc, lM, lN, dMaj, dMin0, hl, h0, hub, hlb, -, -, hxy, -⟩ :=
    pointsOnLine_inv _ _ _ _ h
  subst hl
  obtain ⟨ch, hh⟩ := bresRun_head st ds false p1.c lc rc lM lN dMaj dMin0
  obtain ⟨cl, hlast⟩ := bresRun_last st ds false p1.c lc rc lM lN dMaj dMin0 hub hlb
  refine ⟨_, _, hh, hlast, ?_⟩
  cases st with
  | false =>
      simp [xyPair, Prod.mk.injEq] at hxy
      rcases hxy with ⟨h1, h2⟩ | ⟨h1, h2⟩
      · left; simp [mkPt]; omega
      · right; simp [mkPt]; omega
  | true =>
      simp [xyPair, Prod.mk.injEq] at hxy
      rcases hxy with ⟨h1, h2⟩ | ⟨h1, h2⟩
      · left; simp [mkPt]; omega
      · right; simp [mkPt]; omega

lemma pointsOnLine_chain_shallow (p1 p2 : Point) (ds : Bool) (l : List Point)
    (h : pointsOnLine p1 p2 ds = some l)
    (hsh : (p2.y - p1.y).natAbs ≤ (p2.x - p1.x).natAbs) :
    ∃ d : ℤ, (d = 1 ∨ d = -1) ∧
      List.Chain' (fun a b => b.x = a.x + 1 ∧ (b.y = a.y ∨ b.y = a.y + d)) l := by
  obtain ⟨st, lc, rc, lM, lN, dMaj, dMin0, hl, -, -, -, -, -, -, hstiff⟩ :=
    pointsOnLine_inv _ _ _ _ h
  have hst : st = false := hstiff.mpr hsh
  subst hst
  subst hl
  refine ⟨if dMin0 < 0 then -1 else 1, by split <;> simp, ?_⟩
  apply List.Chain'.imp _ (bresRun_chain false ds false p1.c lc rc lM lN dMaj dMin0)
  intro a b hab
  simpa [majorOf, minorOf] using hab

lemma pointsOnLine_chain_steep (p1 p2 : Point) (ds : Bool) (l : List Point)
    (h : pointsOnLine p1 p2 ds = some l)
    (hsh : ¬ (p2.y - p1.y).natAbs ≤ (p2.x - p1.x).natAbs) :
    ∃ d : ℤ, (d = 1 ∨ d = -1) ∧
      List.Chain' (fun a b => b.y = a.y + 1 ∧ (b.x = a.x ∨ b.x = a.x + d)) l := by
  obtain ⟨st, lc, rc, lM, lN, dMaj, dMin0, hl, -, -, -, -, -, -, hstiff⟩ :=
    pointsOnLine_inv _ _ _ _ h
  have hst : st = true := by
    cases st with
    | false => exact absurd (hstiff.mp rfl) hsh
    | true => rfl
  subst hst
  subst hl
  refine ⟨if dMin0 < 0 then -1 else 1, by split <;> simp, ?_⟩
  apply List.Chain'.imp _ (bresRun_chain true ds false p1.c lc rc lM lN dMaj dMin0)
  intro a b hab
  simpa [majorOf, minorOf] using hab

lemma pointsOnLine_ymono (p1 p2 : Point) (ds : Bool) (l : List Point)
    (h : pointsOnLine p1 p2 ds = some l) :
    l.Pairwise (fun a b => a.y ≤ b.y) ∨ l.Pairwise (fun a b => b.y ≤ a.y) := by
  obtain ⟨st, lc, rc, lM, lN, dMaj, dMin0, hl, -, -, -, -, -, -, -⟩ :=
    pointsOnLine_inv _ _ _ _ h
  subst hl
  have hch := bresRun_chain st ds false p1.c lc rc lM lN dMaj dMin0
  haveI hi1 : IsTrans Point (fun a b => a.y ≤ b.y) := ⟨fun _ _ _ u v => le_trans u v⟩
  haveI hi2 : IsTrans Point (fun a b => b.y ≤ a.y) := ⟨fun _ _ _ u v => le_trans v u⟩
  cases st with
  | false =>
      rcases lt_or_ge dMin0 0 with hneg | hpos
      · right
        apply List.chain'_iff_pairwise.mp
        apply List.Chain'.imp _ hch
        intro a b hab
        have h2 := hab.2
        rw [if_pos hneg] at h2
        simp [minorOf] at h2
        show b.y ≤ a.y
        omega
      · left
        apply List.chain'_iff_pairwise.mp
        apply List.Chain'.imp _ hch
        intro a b hab
        have h2 := hab.2
        rw [if_neg (by omega : ¬ dMin0 < 0)] at h2
        simp [minorOf] at h2
        show a.y ≤ b.y
        omega
  | true =>
      left
      apply List.chain'_iff_pairwise.mp
      apply List.Chain'.imp _ hch
      intro a b hab
      have h1 := hab.1
      simp [majorOf] at h1
      show a.y ≤ b.y
      omega

/-! ## Relating the two Bresenham copies and the two shading modes -/

lemma bresRun_guard_irrel (st ds : Bool) (fc lc rc : ColorType) (lM lN dMaj dMin0 : ℤ)
    (h : ds = true → ¬ dMaj = 0) :
    bresRun st ds true fc lc rc lM lN dMaj dMin0
      = bresRun st ds false fc lc rc lM lN dMaj dMin0 := by
  unfold bresRun
  apply bresLoop_color_irrel
  intro m
  cases ds with
  | false => simp
  | true => simp [h rfl]

lemma pointsOnLine_toDrawLine (p1 p2 : Point) (ds : Bool) (l : List Point)
    (h : pointsOnLine p1 p2 ds = some l) : drawLine p1 p2 ds = l := by
  unfold pointsOnLine at h
  unfold drawLine
  split_ifs at h ⊢ with hsh hx hg hg'
  · rw [bresRun_guard_irrel _ _ _ _ _ _ _ _ _
      (fun hds hz => hg ⟨hds, hz⟩)]
    exact Option.some.inj h
  · rw [bresRun_guard_irrel _ _ _ _ _ _ _ _ _
      (fun hds hz => hg' ⟨hds, hz⟩)]
    exact Option.some.inj h
  · exact Option.some.inj h
  · exact Option.some.inj h

lemma lerp_self (c : ColorType) (t : ℚ) : lerp c c t = c := by
  cases c
  simp only [lerp, ColorType.mk.injEq]
  refine ⟨by ring, by ring, by ring⟩

lemma drawLine_smooth_eq_flat (a b : Point) (hc : a.c = b.c) :
    drawLine a b true = drawLine a b false := by
  unfold drawLine
  split_ifs <;>
    · unfold bresRun
      apply bresLoop_color_irrel
      intro m
      simp [hc, lerp_self]

lemma pointsOnLine_smooth_eq_flat (a b : Point) (hc : a.c = b.c)
    (hne : ¬(a.x = b.x ∧ a.y = b.y)) :
    pointsOnLine a b true = pointsOnLine a b false := by
  obtain ⟨l1, h1, -⟩ := pointsOnLine_some a b true (fun _ => hne)
  obtain ⟨l0, h0, -⟩ := pointsOnLine_some a b false (fun h => by simp at h)
  rw [h1, h0]
  have e1 := pointsOnLine_toDrawLine a b true l1 h1
  have e0 := pointsOnLine_toDrawLine a b false l0 h0
  rw [← e1, ← e0, drawLine_smooth_eq_flat a b hc]

/-! ## Facts about the split-point scan and the dual-edge walk -/

lemma splitScan_finds (t : ℤ) : ∀ (l : List Point), (∃ q ∈ l, q.y = t) →
    ∃ q, splitScan t l = some q ∧ q.y = t ∧ lastOfRun l q := by
  intro l
  induction l with
  | nil => rintro ⟨q, hq, -⟩; exact absurd hq (List.not_mem_nil q)
  | cons p l ih =>
      rintro ⟨q, hq, hqt⟩
      cases l with
      | nil =>
          have hqp : q = p := by
            rcases List.mem_cons.mp hq with h | h
            · exact h
            · exact absurd h (List.not_mem_nil q)
          subst hqp
          refine ⟨q, ?_, hqt, [], [], rfl, fun r hr => by simp at hr⟩
          show splitScan t [q] = some q
          simp only [splitScan, if_pos hqt]
      | cons p2 l2 =>
          by_cases hpq : p.y = p2.y
          · have hrec : ∃ r ∈ p2 :: l2, r.y = t := by
              rcases List.mem_cons.mp hq with rfl | hmem
              · exact ⟨p2, List.mem_cons_self _ _, by omega⟩
              · exact ⟨q, hmem, hqt⟩
            obtain ⟨r, hsc, hrt, pre, post, hd, hp⟩ := ih hrec
            refine ⟨r, ?_, hrt, p :: pre, post, ?_, hp⟩
            · show splitScan t (p :: p2 :: l2) = some r
              simp only [splitScan, if_pos hpq]
              exact hsc
            · rw [hd]
              exact (List.cons_append _ _ _).symm
          · by_cases hpt : p.y = t
            · refine ⟨p, ?_, hpt, [], p2 :: l2, rfl, ?_⟩
              · show splitScan t (p :: p2 :: l2) = some p
                simp only [splitScan, if_neg hpq, if_pos hpt]
              · intro r hr
                cases Option.some.inj hr
                omega
            · have hrec : ∃ r ∈ p2 :: l2, r.y = t := by
                rcases List.mem_cons.mp hq with rfl | hmem
                · exact absurd hqt hpt
                · exact ⟨q, hmem, hqt⟩
              obtain ⟨r, hsc, hrt, pre, post, hd, hp⟩ := ih hrec
              refine ⟨r, ?_, hrt, p :: pre, post, ?_, hp⟩
              · show splitScan t (p :: p2 :: l2) = some r
                simp only [splitScan, if_neg hpq, if_neg hpt]
                exact hsc
              · rw [hd]
                exact (List.cons_append _ _ _).symm

lemma walk_line_mem (a b : Point) : ∀ (l1 l2 : List Point),
    DrawOp.line a b ∈ walk l1 l2 → a ∈ l1 ∧ b ∈ l2 := by
  intro l1 l2
  induction l1, l2 using walk.induct with
  | case1 l2 => intro h; simp [walk] at h
  | case2 p l1 => intro h; simp [walk] at h
  | case3 p l1 q l2 hrun ih =>
      intro h
      rw [walk, if_pos hrun] at h
      rcases List.mem_cons.mp h with h | h
      · exact absurd h (by simp)
      · obtain ⟨ha, hb⟩ := ih h
        exact ⟨List.mem_cons_of_mem _ ha, hb⟩
  | case4 p l1 q l2 hrun hrun2 ih =>
      intro h
      rw [walk, if_neg (by simpa using hrun), if_pos hrun2] at h
      rcases List.mem_cons.mp h with h | h
      · exact absurd h (by simp)
      · obtain ⟨ha, hb⟩ := ih h
        exact ⟨ha, List.mem_cons_of_mem _ hb⟩
  | case5 p l1 q l2 hrun hrun2 ih =>
      intro h
      rw [walk, if_neg (by simpa using hrun), if_neg (by simpa using hrun2)] at h
      rcases List.mem_cons.mp h with h | h
      · cases h
        exact ⟨List.mem_cons_self _ _, List.mem_cons_self _ _⟩
      · obtain ⟨ha, hb⟩ := ih h
        exact ⟨List.mem_cons_of_mem _ ha, List.mem_cons_of_mem _ hb⟩

lemma walk_line_lastOfRun (a b : Point) : ∀ (l1 l2 : List Point),
    DrawOp.line a b ∈ walk l1 l2 → lastOfRun l1 a ∧ lastOfRun l2 b := by
  intro l1 l2
  induction l1, l2 using walk.induct with
  | case1 l2 => intro h; simp [walk] at h
  | case2 p l1 => intro h; simp [walk] at h
  | case3 p l1 q l2 hrun ih =>
      intro h
      rw [walk, if_pos hrun] at h
      rcases List.mem_cons.mp h with h | h
      · exact absurd h (by simp)
      · obtain ⟨⟨pre, post, hd, hp⟩, hb⟩ := ih h
        exact ⟨⟨p :: pre, post, by rw [hd]; exact (List.cons_append _ _ _).symm, hp⟩, hb⟩
  | case4 p l1 q l2 hrun hrun2 ih =>
      intro h
      rw [walk, if_neg (by simpa using hrun), if_pos hrun2] at h
      rcases List.mem_cons.mp h with h | h
      · exact absurd h (by simp)
      · obtain ⟨ha, pre, post, hd, hp⟩ := ih h
        exact ⟨ha, q :: pre, post, by rw [hd]; exact (List.cons_append _ _ _).symm, hp⟩
  | case5 p l1 q l2 hrun hrun2 ih =>
      intro h
      rw [walk, if_neg (by simpa using hrun), if_neg (by simpa using hrun2)] at h
      rcases List.mem_cons.mp h with h | h
      · cases h
        constructor
        · refine ⟨[], l1, rfl, fun r hr => ?_⟩
          cases l1 with
          | nil => simp at hr
          | cons r0 t =>
              cases Option.some.inj hr
              have : ¬ a.y = r.y := by simpa [headRunHit] using hrun
              omega
        · refine ⟨[], l2, rfl, fun r hr => ?_⟩
          cases l2 with
          | nil => simp at hr
          | cons r0 t =>
              cases Option.some.inj hr
              have : ¬ b.y = r.y := by simpa [headRunHit] using hrun2
              omega
      · obtain ⟨⟨pre, post, hd, hp⟩, pre2, post2, hd2, hp2⟩ := ih h
        exact ⟨⟨p :: pre, post, by rw [hd]; exact (List.cons_append _ _ _).symm, hp⟩,
          q :: pre2, post2, by rw [hd2]; exact (List.cons_append _ _ _).symm, hp2⟩

lemma lineYs_point_cons (p : Point) (tr : List DrawOp) :
    lineYs (.point p :: tr) = lineYs tr := rfl

lemma lineYs_line_cons (a b : Point) (tr : List DrawOp) :
    lineYs (.line a b :: tr) = a.y :: lineYs tr := rfl

lemma lineYs_mem (tr : List DrawOp) (z : ℤ) (hz : z ∈ lineYs tr) :
    ∃ a b, DrawOp.line a b ∈ tr ∧ z = a.y := by
  obtain ⟨op, hop, hf⟩ := List.mem_filterMap.mp hz
  cases op with
  | point p => simp at hf
  | line a b => exact ⟨a, b, hop, (Option.some.inj hf).symm⟩

lemma walk_lineYs_nodup : ∀ (l1 l2 : List Point),
    (l1.Pairwise (fun u v => u.y ≤ v.y) ∨ l1.Pairwise (fun u v => v.y ≤ u.y)) →
    (lineYs (walk l1 l2)).Pairwise (fun u v => u ≠ v) := by
  intro l1 l2
  induction l1, l2 using walk.induct with
  | case1 l2 => intro hm; simp [walk, lineYs]
  | case2 p l1 => intro hm; simp [walk, lineYs]
  | case3 p l1 q l2 hrun ih =>
      intro hm
      rw [walk, if_pos hrun, lineYs_point_cons]
      apply ih
      rcases hm with hm | hm
      · exact Or.inl (List.Pairwise.of_cons hm)
      · exact Or.inr (List.Pairwise.of_cons hm)
  | case4 p l1 q l2 hrun hrun2 ih =>
      intro hm
      rw [walk, if_neg (by simpa using hrun), if_pos hrun2, lineYs_point_cons]
      exact ih hm
  | case5 p l1 q l2 hrun hrun2 ih =>
      intro hm
      rw [walk, if_neg (by simpa using hrun), if_neg (by simpa using hrun2), lineYs_line_cons]
      refine List.pairwise_cons.mpr ⟨?_, ?_⟩
      · intro z hz
        obtain ⟨a', b', hmem, rfl⟩ := lineYs_mem _ _ hz
        have ha' : a' ∈ l1 := (walk_line_mem a' b' l1 l2 hmem).1
        cases l1 with
        | nil => simp [walk] at hmem
        | cons r t =>
            have hpr : ¬ p.y = r.y := by simpa [headRunHit] using hrun
            rcases List.mem_cons.mp ha' with rfl | hat
            · intro he; exact hpr (by rw [he])
            · rcases hm with hm | hm
              · have h1 : p.y ≤ r.y := (List.pairwise_cons.mp hm).1 r (List.mem_cons_self _ _)
                have h2 : r.y ≤ a'.y :=
                  (List.pairwise_cons.mp (List.pairwise_cons.mp hm).2).1 a' hat
                intro he; rw [he] at h1; omega
              · have h1 : r.y ≤ p.y := (List.pairwise_cons.mp hm).1 r (List.mem_cons_self _ _)
                have h2 : a'.y ≤ r.y :=
                  (List.pairwise_cons.mp (List.pairwise_cons.mp hm).2).1 a' hat
                intro he; rw [he] at h1; omega
      · apply ih
        rcases hm with hm | hm
        · exact Or.inl (List.Pairwise.of_cons hm)
        · exact Or.inr (List.Pairwise.of_cons hm)

/-! ## Facts about the triangle rasterizer -/

lemma normP_y (base q : Point) (ds : Bool) : (normP base q ds).y = q.y := by
  cases ds <;> simp [normP]

lemma normP_x (base q : Point) (ds : Bool) : (normP base q ds).x = q.x := by
  cases ds <;> simp [normP]

lemma normP_c_flat (base q : Point) : (normP base q false).c = base.c := by
  simp [normP]

lemma selectFlat_mk1 (a b c : Point) (h1 : a.y = b.y) :
    selectFlat a b c = some (a, b, c) := by
  unfold selectFlat
  rw [if_pos h1]

lemma selectFlat_mk2 (a b c : Point) (h1 : a.y ≠ b.y) (h2 : b.y = c.y) :
    selectFlat a b c = some (b, c, a) := by
  unfold selectFlat
  rw [if_neg h1, if_pos h2]

lemma selectFlat_mk3 (a b c : Point) (h1 : a.y ≠ b.y) (h2 : b.y ≠ c.y) (h3 : c.y = a.y) :
    selectFlat a b c = some (c, a, b) := by
  unfold selectFlat
  rw [if_neg h1, if_neg h2, if_pos h3]

lemma selectFlat_cases (p1 p2 p3 v1 v2 v3 : Point)
    (h : selectFlat p1 p2 p3 = some (v1, v2, v3)) :
    (v1 = p1 ∧ v2 = p2 ∧ v3 = p3) ∨ (v1 = p2 ∧ v2 = p3 ∧ v3 = p1) ∨
      (v1 = p3 ∧ v2 = p1 ∧ v3 = p2) := by
  unfold selectFlat at h
  split_ifs at h <;>
    simp only [Option.some.injEq, Prod.mk.injEq] at h
  · exact Or.inl ⟨h.1.symm, h.2.1.symm, h.2.2.symm⟩
  · exact Or.inr (Or.inl ⟨h.1.symm, h.2.1.symm, h.2.2.symm⟩)
  · exact Or.inr (Or.inr ⟨h.1.symm, h.2.1.symm, h.2.2.symm⟩)

lemma drawTriangleFuel_flat (f : Nat) (p1 q2 q3 : Point) (ds : Bool)
    (v1 v2 v3 : Point) (l1 l2 : List Point)
    (hsel : selectFlat p1 (normP p1 q2 ds) (normP p1 q3 ds) = some (v1, v2, v3))
    (h1 : pointsOnLine v3 v1 ds = some l1)
    (h2 : pointsOnLine v3 v2 ds = some l2) :
    drawTriangleFuel (f + 1) p1 q2 q3 ds = .ok (walk l1 (adjustSnd l1 l2)) := by
  obtain ⟨a, t1, he1⟩ := List.exists_cons_of_ne_nil (pointsOnLine_some_ne_nil _ _ _ _ h1)
  obtain ⟨b, t2, he2⟩ := List.exists_cons_of_ne_nil (pointsOnLine_some_ne_nil _ _ _ _ h2)
  subst he1
  subst he2
  rw [drawTriangleFuel]
  simp only [hsel, h1, h2]

lemma drawTriangleFuel_flat_ok (f : Nat) (p1 q2 q3 : Point) (ds : Bool)
    (v1 v2 v3 : Point)
    (hsel : selectFlat p1 (normP p1 q2 ds) (normP p1 q3 ds) = some (v1, v2, v3))
    (hne1 : ds = true → ¬(v3.x = v1.x ∧ v3.y = v1.y))
    (hne2 : ds = true → ¬(v3.x = v2.x ∧ v3.y = v2.y)) :
    ∃ tr, drawTriangleFuel (f + 1) p1 q2 q3 ds = .ok tr := by
  obtain ⟨l1, h1, -⟩ := pointsOnLine_some v3 v1 ds hne1
  obtain ⟨l2, h2, -⟩ := pointsOnLine_some v3 v2 ds hne2
  exact ⟨_, drawTriangleFuel_flat f p1 q2 q3 ds v1 v2 v3 l1 l2 hsel h1 h2⟩

lemma drawTriangleFuel_split_mid1 (p1 q2 q3 : Point) (ds : Bool)
    (h12 : p1.y ≠ q2.y) (h23 : q2.y ≠ q3.y) (h13 : p1.y ≠ q3.y)
    (hmid : (q2.y < p1.y ∧ p1.y < q3.y) ∨ (p1.y < q2.y ∧ q3.y < p1.y)) :
    ∃ tr, drawTriangleFuel 2 p1 q2 q3 ds = .ok tr := by
  have hy2 : (normP p1 q2 ds).y = q2.y := normP_y _ _ _
  have hy3 : (normP p1 q3 ds).y = q3.y := normP_y _ _ _
  have hsel : selectFlat p1 (normP p1 q2 ds) (normP p1 q3 ds) = none := by
    unfold selectFlat
    rw [if_neg (by rw [hy2]; exact h12), if_neg (by rw [hy2, hy3]; exact h23),
      if_neg (by rw [hy3]; omega)]
  obtain ⟨l, hl, -⟩ := pointsOnLine_some (normP p1 q2 ds) (normP p1 q3 ds) true
    (fun _ hco => h23 (by rw [← hy2, ← hy3]; exact hco.2))
  obtain ⟨w, hsc, hwt, -⟩ := splitScan_finds p1.y l
    (pointsOnLine_y_cover _ _ _ _ hl p1.y (by rw [hy2, hy3]; omega))
  have hs1 : selectFlat p1 (normP p1 (normP p1 q2 ds) ds) (normP p1 w ds)
      = some (normP p1 w ds, p1, normP p1 (normP p1 q2 ds) ds) := by
    apply selectFlat_mk3
    · simp only [normP_y]; omega
    · simp only [normP_y]; omega
    · simp only [normP_y]; omega
  obtain ⟨tr1, htr1⟩ := drawTriangleFuel_flat_ok 0 p1 (normP p1 q2 ds) w ds _ _ _ hs1
    (by intro _ hco; simp only [normP_y] at hco; omega)
    (by intro _ hco; simp only [normP_y] at hco; omega)
  have hs2 : selectFlat p1 (normP p1 (normP p1 q3 ds) ds) (normP p1 w ds)
      = some (normP p1 w ds, p1, normP p1 (normP p1 q3 ds) ds) := by
    apply selectFlat_mk3
    · simp only [normP_y]; omega
    · simp only [normP_y]; omega
    · simp only [normP_y]; omega
  obtain ⟨tr2, htr2⟩ := drawTriangleFuel_flat_ok 0 p1 (normP p1 q3 ds) w ds _ _ _ hs2
    (by intro _ hco; simp only [normP_y] at hco; omega)
    (by intro _ hco; simp only [normP_y] at hco; omega)
  have htr1' : drawTriangleFuel 1 p1 (normP p1 q2 ds) w ds = .ok tr1 := htr1
  have htr2' : drawTriangleFuel 1 p1 (normP p1 q3 ds) w ds = .ok tr2 := htr2
  refine ⟨tr1 ++ tr2, ?_⟩
  show drawTriangleFuel (1 + 1) p1 q2 q3 ds = _
  rw [drawTriangleFuel]
  simp only [hsel]
  rw [if_pos (show ((normP p1 q2 ds).y < p1.y ∧ p1.y < (normP p1 q3 ds).y) ∨
      (p1.y < (normP p1 q2 ds).y ∧ (normP p1 q3 ds).y < p1.y) by
    rw [hy2, hy3]; omega)]
  simp only [hl, hsc, htr1', htr2', seqTri]

lemma drawTriangleFuel_split_mid2 (p1 q2 q3 : Point) (ds : Bool)
    (h12 : p1.y ≠ q2.y) (h23 : q2.y ≠ q3.y) (h13 : p1.y ≠ q3.y)
    (hmid : (p1.y < q2.y ∧ q2.y < q3.y) ∨ (q3.y < q2.y ∧ q2.y < p1.y)) :
    ∃ tr, drawTriangleFuel 2 p1 q2 q3 ds = .ok tr := by
  have hy2 : (normP p1 q2 ds).y = q2.y := normP_y _ _ _
  have hy3 : (normP p1 q3 ds).y = q3.y := normP_y _ _ _
  have hsel : selectFlat p1 (normP p1 q2 ds) (normP p1 q3 ds) = none := by
    unfold selectFlat
    rw [if_neg (by rw [hy2]; exact h12), if_neg (by rw [hy2, hy3]; exact h23),
      if_neg (by rw [hy3]; omega)]
  obtain ⟨l, hl, -⟩ := pointsOnLine_some p1 (normP p1 q3 ds) true
    (fun _ hco => h13 (by rw [← hy3]; exact hco.2))
  obtain ⟨w, hsc, hwt, -⟩ := splitScan_finds q2.y l
    (pointsOnLine_y_cover _ _ _ _ hl q2.y (by rw [hy3]; omega))
  have hs1 : selectFlat p1 (normP p1 (normP p1 q2 ds) ds) (normP p1 w ds)
      = some (normP p1 (normP p1 q2 ds) ds, normP p1 w ds, p1) := by
    apply selectFlat_mk2
    · simp only [normP_y]; omega
    · simp only [normP_y]; omega
  obtain ⟨tr1, htr1⟩ := drawTriangleFuel_flat_ok 0 p1 (normP p1 q2 ds) w ds _ _ _ hs1
    (by intro _ hco; simp only [normP_y] at hco; omega)
    (by intro _ hco; simp only [normP_y] at hco; omega)
  have hs2 : selectFlat (normP p1 q2 ds)
      (normP (normP p1 q2 ds) (normP p1 q3 ds) ds) (normP (normP p1 q2 ds) w ds)
      = some (normP (normP p1 q2 ds) w ds, normP p1 q2 ds,
          normP (normP p1 q2 ds) (normP p1 q3 ds) ds) := by
    apply selectFlat_mk3
    · simp only [normP_y]; omega
    · simp only [normP_y]; omega
    · simp only [normP_y]; omega
  obtain ⟨tr2, htr2⟩ := drawTriangleFuel_flat_ok 0 (normP p1 q2 ds) (normP p1 q3 ds) w ds
    _ _ _ hs2
    (by intro _ hco; simp only [normP_y] at hco; omega)
    (by intro _ hco; simp only [normP_y] at hco; omega)
  have htr1' : drawTriangleFuel 1 p1 (normP p1 q2 ds) w ds = .ok tr1 := htr1
  have htr2' : drawTriangleFuel 1 (normP p1 q2 ds) (normP p1 q3 ds) w ds = .ok tr2 := htr2
  refine ⟨tr1 ++ tr2, ?_⟩
  show drawTriangleFuel (1 + 1) p1 q2 q3 ds = _
  rw [drawTriangleFuel]
  simp only [hsel]
  rw [if_neg (show ¬ (((normP p1 q2 ds).y < p1.y ∧ p1.y < (normP p1 q3 ds).y) ∨
      (p1.y < (normP p1 q2 ds).y ∧ (normP p1 q3 ds).y < p1.y)) by
    rw [hy2, hy3]; omega)]
  rw [if_pos (show (p1.y < (normP p1 q2 ds).y ∧ (normP p1 q2 ds).y < (normP p1 q3 ds).y) ∨
      ((normP p1 q2 ds).y < p1.y ∧ (normP p1 q3 ds).y < (normP p1 q2 ds).y) by
    rw [hy2, hy3]; omega)]
  rw [hy2]
  simp only [hl, hsc, htr1', htr2', seqTri]

lemma drawTriangleFuel_split_mid3 (p1 q2 q3 : Point) (ds : Bool)
    (h12 : p1.y ≠ q2.y) (h23 : q2.y ≠ q3.y) (h13 : p1.y ≠ q3.y)
    (hmid : (p1.y < q3.y ∧ q3.y < q2.y) ∨ (q2.y < q3.y ∧ q3.y < p1.y)) :
    ∃ tr, drawTriangleFuel 2 p1 q2 q3 ds = .ok tr := by
  have hy2 : (normP p1 q2 ds).y = q2.y := normP_y _ _ _
  have hy3 : (normP p1 q3 ds).y = q3.y := normP_y _ _ _
  have hsel : selectFlat p1 (normP p1 q2 ds) (normP p1 q3 ds) = none := by
    unfold selectFlat
    rw [if_neg (by rw [hy2]; exact h12), if_neg (by rw [hy2, hy3]; exact h23),
      if_neg (by rw [hy3]; omega)]
  obtain ⟨l, hl, -⟩ := pointsOnLine_some p1 (normP p1 q2 ds) true
    (fun _ hco => h12 (by rw [← hy2]; exact hco.2))
  obtain ⟨w, hsc, hwt, -⟩ := splitScan_finds q3.y l
    (pointsOnLine_y_cover _ _ _ _ hl q3.y (by rw [hy2]; omega))
  have hs1 : selectFlat p1 (normP p1 (normP p1 q3 ds) ds) (normP p1 w ds)
      = some (normP p1 (normP p1 q3 ds) ds, normP p1 w ds, p1) := by
    apply selectFlat_mk2
    · simp only [normP_y]; omega
    · simp only [normP_y]; omega
  obtain ⟨tr1, htr1⟩ := drawTriangleFuel_flat_ok 0 p1 (normP p1 q3 ds) w ds _ _ _ hs1
    (by intro _ hco; simp only [normP_y] at hco; omega)
    (by intro _ hco; simp only [normP_y] at hco; omega)
  have hs2 : selectFlat (normP p1 q3 ds)
      (normP (normP p1 q3 ds) (normP p1 q2 ds) ds) (normP (normP p1 q3 ds) w ds)
      = some (normP (normP p1 q3 ds) w ds, normP p1 q3 ds,
          normP (normP p1 q3 ds) (normP p1 q2 ds) ds) := by
    apply selectFlat_mk3
    · simp only [normP_y]; omega
    · simp only [normP_y]; omega
    · simp only [normP_y]; omega
  obtain ⟨tr2, htr2⟩ := drawTriangleFuel_flat_ok 0 (normP p1 q3 ds) (normP p1 q2 ds) w ds
    _ _ _ hs2
    (by intro _ hco; simp only [normP_y] at hco; omega)
    (by intro _ hco; simp only [normP_y] at hco; omega)
  have htr1' : drawTriangleFuel 1 p1 (normP p1 q3 ds) w ds = .ok tr1 := htr1
  have htr2' : drawTriangleFuel 1 (normP p1 q3 ds) (normP p1 q2 ds) w ds = .ok tr2 := htr2
  refine ⟨tr1 ++ tr2, ?_⟩
  show drawTriangleFuel (1 + 1) p1 q2 q3 ds = _
  rw [drawTriangleFuel]
  simp only [hsel]
  rw [if_neg (show ¬ (((normP p1 q2 ds).y < p1.y ∧ p1.y < (normP p1 q3 ds).y) ∨
      (p1.y < (normP p1 q2 ds).y ∧ (normP p1 q3 ds).y < p1.y)) by
    rw [hy2, hy3]; omega)]
  rw [if_neg (show ¬ ((p1.y < (normP p1 q2 ds).y ∧ (normP p1 q2 ds).y < (normP p1 q3 ds).y) ∨
      ((normP p1 q2 ds).y < p1.y ∧ (normP p1 q3 ds).y < (normP p1 q2 ds).y)) by
    rw [hy2, hy3]; omega)]
  rw [if_pos (show (p1.y < (normP p1 q3 ds).y ∧ (normP p1 q3 ds).y < (normP p1 q2 ds).y) ∨
      ((normP p1 q3 ds).y < p1.y ∧ (normP p1 q2 ds).y < (normP p1 q3 ds).y) by
    rw [hy2, hy3]; omega)]
  rw [hy3]
  simp only [hl, hsc, htr1', htr2', seqTri]

lemma drawTriangle_distinct_ok (p1 q2 q3 : Point) (ds : Bool)
    (h12 : p1.y ≠ q2.y) (h23 : q2.y ≠ q3.y) (h13 : p1.y ≠ q3.y) :
    ∃ tr, drawTriangleFuel 2 p1 q2 q3 ds = .ok tr := by
  rcases lt_trichotomy p1.y q2.y with ha | ha | ha
  · rcases lt_trichotomy q2.y q3.y with hb | hb | hb
    · exact drawTriangleFuel_split_mid2 p1 q2 q3 ds h12 h23 h13 (by omega)
    · exact absurd hb h23
    · rcases lt_trichotomy p1.y q3.y with hc | hc | hc
      · exact drawTriangleFuel_split_mid3 p1 q2 q3 ds h12 h23 h13 (by omega)
      · exact absurd hc h13
      · exact drawTriangleFuel_split_mid1 p1 q2 q3 ds h12 h23 h13 (by omega)
  · exact absurd ha h12
  · rcases lt_trichotomy q2.y q3.y with hb | hb | hb
    · rcases lt_trichotomy p1.y q3.y with hc | hc | hc
      · exact drawTriangleFuel_split_mid1 p1 q2 q3 ds h12 h23 h13 (by omega)
      · exact absurd hc h13
      · exact drawTriangleFuel_split_mid3 p1 q2 q3 ds h12 h23 h13 (by omega)
    · exact absurd hb h23
    · exact drawTriangleFuel_split_mid2 p1 q2 q3 ds h12 h23 h13 (by omega)

/-! ## The claims -/

/-- C1: the claim says `drawLine` writes exactly the Points that
`pointsOnLine` returns, for every pair of endpoints and every shading
mode.  The code violates this on a zero-length segment in smooth mode:
`pointsOnLine` divides by zero at `t = (i - l_x) / dx` with `dx = 0`
(`Sketch.py` line 457, no guard), raising `ZeroDivisionError`, while
`drawLine` guards `dx == 0` with `t = 1` (lines 322-325) and writes one
pixel.  This theorem evaluates both functions at the failing input;
`pointsOnLine_toDrawLine` above shows the two agree on every input on
which `pointsOnLine` does not raise. -/
theorem generator_vs_drawLine_divergence :
    pointsOnLine ⟨0, 0, ⟨1, 0, 0⟩⟩ ⟨0, 0, ⟨0, 1, 0⟩⟩ true = none ∧
    drawLine ⟨0, 0, ⟨1, 0, 0⟩⟩ ⟨0, 0, ⟨0, 1, 0⟩⟩ true = [⟨0, 0, ⟨1, 0, 0⟩⟩] := by
  constructor <;> norm_num [pointsOnLine, drawLine, bresRun, bresLoop, mkPt, lerp]

/-- C2: the claim says `pointsOnLine(p, p, mode)` returns exactly one
Point at `p`'s coordinates and `drawLine(buff, p, p, mode)` writes one
pixel, and neither raises.  In flat mode both hold, and `drawLine`
writes one pixel in both modes, but `pointsOnLine(p, p, True)` raises
`ZeroDivisionError` (`Sketch.py` line 457: `t = (i - l_x) / dx` with
`dx = 0`), contradicting the claim and the spec's "emit exactly one
Point" rule for `major_delta = 0`. -/
theorem single_point_segment_behavior :
    pointsOnLine ⟨5, 5, ⟨1, 0, 0⟩⟩ ⟨5, 5, ⟨1, 0, 0⟩⟩ true = none ∧
    pointsOnLine ⟨5, 5, ⟨1, 0, 0⟩⟩ ⟨5, 5, ⟨1, 0, 0⟩⟩ false = some [⟨5, 5, ⟨1, 0, 0⟩⟩] ∧
    drawLine ⟨5, 5, ⟨1, 0, 0⟩⟩ ⟨5, 5, ⟨1, 0, 0⟩⟩ true = [⟨5, 5, ⟨1, 0, 0⟩⟩] ∧
    drawLine ⟨5, 5, ⟨1, 0, 0⟩⟩ ⟨5, 5, ⟨1, 0, 0⟩⟩ false = [⟨5, 5, ⟨1, 0, 0⟩⟩] := by
  refine ⟨?_, ?_, ?_, ?_⟩ <;> norm_num [pointsOnLine, drawLine, bresRun, bresLoop, mkPt, lerp]

/-- C3: the claim says a triangle with two or three coincident vertices
terminates without an exception, drawing a line or a point.  With three
coincident vertices in smooth mode, `drawTriangle` calls
`pointsOnLine(v3, v1, True)` on coincident endpoints and raises
`ZeroDivisionError` (modelled as `.exn`); in flat mode the same
triangle draws a single degenerate line, as the claim describes. -/
theorem degenerate_triangle_behavior :
    drawTriangle ⟨3, 4, ⟨1, 0, 0⟩⟩ ⟨3, 4, ⟨0, 1, 0⟩⟩ ⟨3, 4, ⟨0, 0, 1⟩⟩ true = .exn ∧
    drawTriangle ⟨3, 4, ⟨1, 0, 0⟩⟩ ⟨3, 4, ⟨0, 1, 0⟩⟩ ⟨3, 4, ⟨0, 0, 1⟩⟩ false
      = .ok [.line ⟨3, 4, ⟨1, 0, 0⟩⟩ ⟨3, 4, ⟨1, 0, 0⟩⟩] := by
  constructor <;> norm_num [drawTriangle, drawTriangleFuel, pointsOnLine, bresRun, bresLoop, mkPt, lerp, normP, selectFlat, walk, headRunHit, adjustSnd, seqTri, splitScan]

/-- C4: for every triangle whose vertices have pairwise distinct
y-coordinates, `drawTriangle` succeeds with recursion fuel 2, i.e. the
split-search loop terminates, both recursive calls take the flat-pair
path, and recursion depth is at most one (`.stuck` would propagate if a
depth-2 call occurred); and for every smooth-mode edge list, a target y
strictly between the two endpoint ys is attained by some generated
point, and the split scan returns the last such point of its
duplicate-y run. -/
theorem split_search_terminates :
    (∀ (p1 q2 q3 : Point) (ds : Bool), p1.y ≠ q2.y → q2.y ≠ q3.y → p1.y ≠ q3.y →
      ∃ tr, drawTriangle p1 q2 q3 ds = .ok tr) ∧
    (∀ (a b : Point) (t : ℤ) (l : List Point), pointsOnLine a b true = some l →
      (a.y < t ∧ t < b.y) ∨ (b.y < t ∧ t < a.y) →
      ∃ q, splitScan t l = some q ∧ q.y = t ∧ lastOfRun l q) := by
  constructor
  · intro p1 q2 q3 ds h12 h23 h13
    exact drawTriangle_distinct_ok p1 q2 q3 ds h12 h23 h13
  · intro a b t l hl hbet
    apply splitScan_finds
    exact pointsOnLine_y_cover a b true l hl t (by omega)

theorem split_search_terminates_inst :
    ∃ tr, drawTriangle ⟨0, 0, ⟨1, 0, 0⟩⟩ ⟨4, 6, ⟨0, 1, 0⟩⟩ ⟨8, 2, ⟨0, 0, 1⟩⟩ true
      = .ok tr :=
  split_search_terminates.1 ⟨0, 0, ⟨1, 0, 0⟩⟩ ⟨4, 6, ⟨0, 1, 0⟩⟩ ⟨8, 2, ⟨0, 0, 1⟩⟩ true
    (by decide) (by decide) (by decide)

/-- C5: in the dual-edge scanline walk of `drawTriangle` (the flat-pair
path that walks the two materialized edge lists), the y-levels of the
issued filling lines, keyed by the left-sequence endpoint of each
`drawLine` call, are pairwise distinct — at most one filling line per
distinct y-level — and every endpoint of a filling line is the last
point of its duplicate-y run in its own sequence, so duplicate-y points
are only plotted individually, never connected by a line. -/
theorem scanline_once_per_y (p1 q2 q3 : Point) (ds : Bool) (v1 v2 v3 : Point)
    (l1 l2 : List Point)
    (hsel : selectFlat p1 (normP p1 q2 ds) (normP p1 q3 ds) = some (v1, v2, v3))
    (h1 : pointsOnLine v3 v1 ds = some l1)
    (h2 : pointsOnLine v3 v2 ds = some l2) :
    (∀ f : Nat, drawTriangleFuel (f + 1) p1 q2 q3 ds
        = .ok (walk l1 (adjustSnd l1 l2))) ∧
    (lineYs (walk l1 (adjustSnd l1 l2))).Pairwise (fun u v => u ≠ v) ∧
    (∀ a b, DrawOp.line a b ∈ walk l1 (adjustSnd l1 l2) →
      lastOfRun l1 a ∧ lastOfRun (adjustSnd l1 l2) b) := by
  refine ⟨fun f => drawTriangleFuel_flat f p1 q2 q3 ds v1 v2 v3 l1 l2 hsel h1 h2,
    ?_, fun a b hm => walk_line_lastOfRun a b l1 (adjustSnd l1 l2) hm⟩
  exact walk_lineYs_nodup l1 (adjustSnd l1 l2) (pointsOnLine_ymono v3 v1 ds l1 h1)

theorem scanline_once_per_y_inst :
    drawTriangleFuel (0 + 1) ⟨0, 0, ⟨1, 0, 0⟩⟩ ⟨2, 0, ⟨1, 0, 0⟩⟩ ⟨1, 2, ⟨1, 0, 0⟩⟩ true
      = .ok (walk [⟨0, 0, ⟨1, 0, 0⟩⟩, ⟨0, 1, ⟨1, 0, 0⟩⟩, ⟨1, 2, ⟨1, 0, 0⟩⟩]
          (adjustSnd [⟨0, 0, ⟨1, 0, 0⟩⟩, ⟨0, 1, ⟨1, 0, 0⟩⟩, ⟨1, 2, ⟨1, 0, 0⟩⟩]
            [⟨2, 0, ⟨1, 0, 0⟩⟩, ⟨2, 1, ⟨1, 0, 0⟩⟩, ⟨1, 2, ⟨1, 0, 0⟩⟩])) :=
  (scanline_once_per_y ⟨0, 0, ⟨1, 0, 0⟩⟩ ⟨2, 0, ⟨1, 0, 0⟩⟩ ⟨1, 2, ⟨1, 0, 0⟩⟩ true
    ⟨0, 0, ⟨1, 0, 0⟩⟩ ⟨2, 0, ⟨1, 0, 0⟩⟩ ⟨1, 2, ⟨1, 0, 0⟩⟩
    [⟨0, 0, ⟨1, 0, 0⟩⟩, ⟨0, 1, ⟨1, 0, 0⟩⟩, ⟨1, 2, ⟨1, 0, 0⟩⟩]
    [⟨2, 0, ⟨1, 0, 0⟩⟩, ⟨2, 1, ⟨1, 0, 0⟩⟩, ⟨1, 2, ⟨1, 0, 0⟩⟩]
    (by norm_num [selectFlat, normP])
    (by norm_num [pointsOnLine, bresRun, bresLoop, mkPt, lerp])
    (by norm_num [pointsOnLine, bresRun, bresLoop, mkPt, lerp])).1 0

/-- C6 counterexample: the claim says `drawTriangle` materializes its
two non-horizontal edges via the scan-point generator in smooth mode
regardless of the caller's shading mode; the code passes the caller's
`doSmooth` instead (`Sketch.py` lines 639-640).  For this degenerate
flat-mode triangle whose apex coincides with a flat-pair vertex the
call succeeds, while the smooth-mode generator on that edge returns no
list at all (it raises `ZeroDivisionError`), so the edges cannot have
been materialized in smooth mode. -/
theorem triangle_edges_smooth_mode_cex :
    drawTriangle ⟨0, 0, ⟨1, 0, 0⟩⟩ ⟨1, 0, ⟨0, 1, 0⟩⟩ ⟨0, 0, ⟨0, 0, 1⟩⟩ false
      = .ok [.point ⟨0, 0, ⟨1, 0, 0⟩⟩, .line ⟨0, 0, ⟨1, 0, 0⟩⟩ ⟨1, 0, ⟨1, 0, 0⟩⟩] ∧
    selectFlat ⟨0, 0, ⟨1, 0, 0⟩⟩ (normP ⟨0, 0, ⟨1, 0, 0⟩⟩ ⟨1, 0, ⟨0, 1, 0⟩⟩ false)
        (normP ⟨0, 0, ⟨1, 0, 0⟩⟩ ⟨0, 0, ⟨0, 0, 1⟩⟩ false)
      = some (⟨0, 0, ⟨1, 0, 0⟩⟩, ⟨1, 0, ⟨1, 0, 0⟩⟩, ⟨0, 0, ⟨1, 0, 0⟩⟩) ∧
    pointsOnLine ⟨0, 0, ⟨1, 0, 0⟩⟩ ⟨0, 0, ⟨1, 0, 0⟩⟩ true = none := by
  refine ⟨?_, ?_, ?_⟩ <;>
    norm_num [drawTriangle, drawTriangleFuel, pointsOnLine, bresRun, bresLoop, mkPt,
      lerp, normP, selectFlat, walk, headRunHit, adjustSnd, seqTri, splitScan]

/-- C6 amended: `drawTriangle` materializes its two non-horizontal
edges via the scan-point generator in the shading mode passed by the
caller, not always in smooth mode; because flat mode first overwrites
all vertex colors with the first vertex's color, the flat-mode edge
lists coincide with the smooth-mode edge lists whenever the apex's
coordinates differ from each flat-pair vertex's coordinates (for a
degenerate apex the smooth-mode generator raises while the flat-mode
call succeeds, as the counterexample shows). -/
theorem triangle_edges_mode_amended (p1 q2 q3 : Point) (v1 v2 v3 : Point)
    (hsel : selectFlat p1 (normP p1 q2 false) (normP p1 q3 false) = some (v1, v2, v3))
    (hne1 : ¬(v3.x = v1.x ∧ v3.y = v1.y))
    (hne2 : ¬(v3.x = v2.x ∧ v3.y = v2.y)) :
    ∃ l1 l2, pointsOnLine v3 v1 true = some l1 ∧ pointsOnLine v3 v2 true = some l2 ∧
      ∀ f : Nat, drawTriangleFuel (f + 1) p1 q2 q3 false
        = .ok (walk l1 (adjustSnd l1 l2)) := by
  have hc : v1.c = p1.c ∧ v2.c = p1.c ∧ v3.c = p1.c := by
    rcases selectFlat_cases _ _ _ _ _ _ hsel with ⟨e1, e2, e3⟩ | ⟨e1, e2, e3⟩ | ⟨e1, e2, e3⟩ <;>
      subst e1 <;> subst e2 <;> subst e3 <;>
      exact ⟨by simp [normP_c_flat], by simp [normP_c_flat], by simp [normP_c_flat]⟩
  have he1 : pointsOnLine v3 v1 true = pointsOnLine v3 v1 false :=
    pointsOnLine_smooth_eq_flat v3 v1 (by rw [hc.2.2, hc.1]) hne1
  have he2 : pointsOnLine v3 v2 true = pointsOnLine v3 v2 false :=
    pointsOnLine_smooth_eq_flat v3 v2 (by rw [hc.2.2, hc.2.1]) hne2
  obtain ⟨l1, h1, -⟩ := pointsOnLine_some v3 v1 false (fun h => absurd h (by simp))
  obtain ⟨l2, h2, -⟩ := pointsOnLine_some v3 v2 false (fun h => absurd h (by simp))
  exact ⟨l1, l2, by rw [he1]; exact h1, by rw [he2]; exact h2,
    fun f => drawTriangleFuel_flat f p1 q2 q3 false v1 v2 v3 l1 l2 hsel h1 h2⟩

theorem triangle_edges_mode_amended_inst :
    ∃ l1 l2,
      pointsOnLine ⟨1, 2, ⟨1, 0, 0⟩⟩ ⟨0, 0, ⟨1, 0, 0⟩⟩ true = some l1 ∧
      pointsOnLine ⟨1, 2, ⟨1, 0, 0⟩⟩ ⟨2, 0, ⟨1, 0, 0⟩⟩ true = some l2 ∧
      ∀ f : Nat, drawTriangleFuel (f + 1) ⟨0, 0, ⟨1, 0, 0⟩⟩ ⟨2, 0, ⟨0, 1, 0⟩⟩
          ⟨1, 2, ⟨0, 0, 1⟩⟩ false = .ok (walk l1 (adjustSnd l1 l2)) :=
  triangle_edges_mode_amended ⟨0, 0, ⟨1, 0, 0⟩⟩ ⟨2, 0, ⟨0, 1, 0⟩⟩ ⟨1, 2, ⟨0, 0, 1⟩⟩
    ⟨0, 0, ⟨1, 0, 0⟩⟩ ⟨2, 0, ⟨1, 0, 0⟩⟩ ⟨1, 2, ⟨1, 0, 0⟩⟩
    (by norm_num [selectFlat, normP]) (by decide) (by decide)

/-- C7: in flat shading mode every Point emitted by the scan-point
generator `pointsOnLine`, and every pixel written by `drawLine`,
carries exactly the color of `p1`, the first caller-supplied endpoint
(`color = p1_c`, `Sketch.py` lines 332-334 and 464-466), even when the
endpoints are geometrically reordered along the dominant axis. -/
theorem flat_shading_anchor (p1 p2 : Point) :
    (∀ q ∈ drawLine p1 p2 false, q.c = p1.c) ∧
    (∀ l, pointsOnLine p1 p2 false = some l → ∀ q ∈ l, q.c = p1.c) :=
  ⟨drawLine_flat_colors p1 p2, fun l hl => pointsOnLine_flat_colors p1 p2 l hl⟩

theorem flat_shading_anchor_inst :
    (Point.mk 2 1 ⟨1, 0, 0⟩).c = (Point.mk 0 0 ⟨1, 0, 0⟩).c :=
  (flat_shading_anchor ⟨0, 0, ⟨1, 0, 0⟩⟩ ⟨2, 1, ⟨0, 1, 0⟩⟩).2
    [⟨0, 0, ⟨1, 0, 0⟩⟩, ⟨1, 0, ⟨1, 0, 0⟩⟩, ⟨2, 1, ⟨1, 0, 0⟩⟩]
    (by norm_num [pointsOnLine, bresRun, bresLoop, mkPt, lerp])
    ⟨2, 1, ⟨1, 0, 0⟩⟩ (by decide)

/-- C8: for a shallow segment (`|Δy| ≤ |Δx|`) the x-coordinates of
consecutive generated Points advance by exactly 1 (monotonically, with
no repeated x), while y changes by 0 or by exactly 1 in a fixed
direction `d`; symmetrically for a steep segment on y. -/
theorem dominant_axis_step (p1 p2 : Point) (ds : Bool) (l : List Point)
    (h : pointsOnLine p1 p2 ds = some l) :
    ((p2.y - p1.y).natAbs ≤ (p2.x - p1.x).natAbs →
      ∃ d : ℤ, (d = 1 ∨ d = -1) ∧
        List.Chain' (fun a b => b.x = a.x + 1 ∧ (b.y = a.y ∨ b.y = a.y + d)) l) ∧
    (¬ (p2.y - p1.y).natAbs ≤ (p2.x - p1.x).natAbs →
      ∃ d : ℤ, (d = 1 ∨ d = -1) ∧
        List.Chain' (fun a b => b.y = a.y + 1 ∧ (b.x = a.x ∨ b.x = a.x + d)) l) :=
  ⟨fun hsh => pointsOnLine_chain_shallow p1 p2 ds l h hsh,
   fun hsh => pointsOnLine_chain_steep p1 p2 ds l h hsh⟩

theorem dominant_axis_step_inst :
    ∃ d : ℤ, (d = 1 ∨ d = -1) ∧
      List.Chain' (fun a b => b.x = a.x + 1 ∧ (b.y = a.y ∨ b.y = a.y + d))
        [Point.mk 0 0 ⟨1, 0, 0⟩, ⟨1, 0, ⟨1, 0, 0⟩⟩, ⟨2, 1, ⟨1, 0, 0⟩⟩, ⟨3, 1, ⟨1, 0, 0⟩⟩] :=
  (dominant_axis_step ⟨0, 0, ⟨1, 0, 0⟩⟩ ⟨3, 1, ⟨1, 0, 0⟩⟩ false _
    (by norm_num [pointsOnLine, bresRun, bresLoop, mkPt, lerp])).1 (by decide)

/-- C9: for every segment for which the generator returns a point
sequence, the sequence contains a Point at `p1`'s integer coordinates
and a Point at `p2`'s integer coordinates, and its first and last
elements are exactly the two endpoints, in dominant-axis order. -/
theorem endpoint_inclusion (p1 p2 : Point) (ds : Bool) (l : List Point)
    (h : pointsOnLine p1 p2 ds = some l) :
    (∃ q ∈ l, q.x = p1.x ∧ q.y = p1.y) ∧ (∃ q ∈ l, q.x = p2.x ∧ q.y = p2.y) ∧
    ∃ a b, l.head? = some a ∧ l.getLast? = some b ∧
      ((a.x = p1.x ∧ a.y = p1.y ∧ b.x = p2.x ∧ b.y = p2.y) ∨
       (a.x = p2.x ∧ a.y = p2.y ∧ b.x = p1.x ∧ b.y = p1.y)) := by
  obtain ⟨a, b, hh, hl2, hcase⟩ := pointsOnLine_ends p1 p2 ds l h
  refine ⟨?_, ?_, a, b, hh, hl2, hcase⟩
  · rcases hcase with ⟨e1, e2, e3, e4⟩ | ⟨e1, e2, e3, e4⟩
    · exact ⟨a, List.mem_of_mem_head? hh, e1, e2⟩
    · exact ⟨b, mem_of_getLast?_eq hl2, e3, e4⟩
  · rcases hcase with ⟨e1, e2, e3, e4⟩ | ⟨e1, e2, e3, e4⟩
    · exact ⟨b, mem_of_getLast?_eq hl2, e3, e4⟩
    · exact ⟨a, List.mem_of_mem_head? hh, e1, e2⟩

theorem endpoint_inclusion_inst :
    (∃ q ∈ [Point.mk 5 2 ⟨1, 0, 0⟩, ⟨6, 2, ⟨1, 0, 0⟩⟩, ⟨7, 3, ⟨1, 0, 0⟩⟩],
        q.x = (Point.mk 7 3 ⟨1, 0, 0⟩).x ∧ q.y = (Point.mk 7 3 ⟨1, 0, 0⟩).y) ∧
    (∃ q ∈ [Point.mk 5 2 ⟨1, 0, 0⟩, ⟨6, 2, ⟨1, 0, 0⟩⟩, ⟨7, 3, ⟨1, 0, 0⟩⟩],
        q.x = (Point.mk 5 2 ⟨0, 1, 0⟩).x ∧ q.y = (Point.mk 5 2 ⟨0, 1, 0⟩).y) ∧
    ∃ a b, [Point.mk 5 2 ⟨1, 0, 0⟩, ⟨6, 2, ⟨1, 0, 0⟩⟩, ⟨7, 3, ⟨1, 0, 0⟩⟩].head? = some a ∧
      [Point.mk 5 2 ⟨1, 0, 0⟩, ⟨6, 2, ⟨1, 0, 0⟩⟩, ⟨7, 3, ⟨1, 0, 0⟩⟩].getLast? = some b ∧
      ((a.x = (Point.mk 7 3 ⟨1, 0, 0⟩).x ∧ a.y = (Point.mk 7 3 ⟨1, 0, 0⟩).y ∧
          b.x = (Point.mk 5 2 ⟨0, 1, 0⟩).x ∧ b.y = (Point.mk 5 2 ⟨0, 1, 0⟩).y) ∨
       (a.x = (Point.mk 5 2 ⟨0, 1, 0⟩).x ∧ a.y = (Point.mk 5 2 ⟨0, 1, 0⟩).y ∧
          b.x = (Point.mk 7 3 ⟨1, 0, 0⟩).x ∧ b.y = (Point.mk 7 3 ⟨1, 0, 0⟩).y)) :=
  endpoint_inclusion ⟨7, 3, ⟨1, 0, 0⟩⟩ ⟨5, 2, ⟨0, 1, 0⟩⟩ false _
    (by norm_num [pointsOnLine, bresRun, bresLoop, mkPt, lerp])

/-- C10: for a segment whose endpoint color channels lie in `[0, 1]`,
every color emitted in smooth mode has each channel within
`[min(c1, c2), max(c1, c2)]` of the corresponding endpoint channels —
each emitted color is a channel-wise convex combination of the two
endpoint colors with `t ∈ [0, 1]` — and in particular is itself a valid
color with channels in `[0, 1]`. -/
theorem color_interpolation_bounds (p1 p2 : Point) (l : List Point)
    (h : pointsOnLine p1 p2 true = some l)
    (hv : (0 ≤ p1.c.r ∧ p1.c.r ≤ 1) ∧ (0 ≤ p1.c.g ∧ p1.c.g ≤ 1) ∧
          (0 ≤ p1.c.b ∧ p1.c.b ≤ 1) ∧ (0 ≤ p2.c.r ∧ p2.c.r ≤ 1) ∧
          (0 ≤ p2.c.g ∧ p2.c.g ≤ 1) ∧ (0 ≤ p2.c.b ∧ p2.c.b ≤ 1)) :
    ∀ q ∈ l,
      (min p1.c.r p2.c.r ≤ q.c.r ∧ q.c.r ≤ max p1.c.r p2.c.r ∧
       min p1.c.g p2.c.g ≤ q.c.g ∧ q.c.g ≤ max p1.c.g p2.c.g ∧
       min p1.c.b p2.c.b ≤ q.c.b ∧ q.c.b ≤ max p1.c.b p2.c.b) ∧
      ((0 ≤ q.c.r ∧ q.c.r ≤ 1) ∧ (0 ≤ q.c.g ∧ q.c.g ≤ 1) ∧ (0 ≤ q.c.b ∧ q.c.b ≤ 1)) := by
  intro q hq
  obtain ⟨t, ht0, ht1, hc⟩ := pointsOnLine_smooth_form p1 p2 l h q hq
  have hb : ∀ x y : ℚ, min x y ≤ (1 - t) * x + t * y ∧ (1 - t) * x + t * y ≤ max x y :=
    fun x y => lerp_channel_bounds x y t ht0 ht1
  have hbounds : min p1.c.r p2.c.r ≤ q.c.r ∧ q.c.r ≤ max p1.c.r p2.c.r ∧
      min p1.c.g p2.c.g ≤ q.c.g ∧ q.c.g ≤ max p1.c.g p2.c.g ∧
      min p1.c.b p2.c.b ≤ q.c.b ∧ q.c.b ≤ max p1.c.b p2.c.b := by
    rcases hc with hc | hc <;> rw [hc] <;> simp only [lerp]
    · exact ⟨(hb _ _).1, (hb _ _).2, (hb _ _).1, (hb _ _).2, (hb _ _).1, (hb _ _).2⟩
    · rw [min_comm p1.c.r p2.c.r, max_comm p1.c.r p2.c.r, min_comm p1.c.g p2.c.g,
        max_comm p1.c.g p2.c.g, min_comm p1.c.b p2.c.b, max_comm p1.c.b p2.c.b]
      exact ⟨(hb _ _).1, (hb _ _).2, (hb _ _).1, (hb _ _).2, (hb _ _).1, (hb _ _).2⟩
  obtain ⟨⟨v1, v2⟩, ⟨v3, v4⟩, ⟨v5, v6⟩, ⟨v7, v8⟩, ⟨v9, v10⟩, v11, v12⟩ := hv
  obtain ⟨b1, b2, b3, b4, b5, b6⟩ := hbounds
  exact ⟨⟨b1, b2, b3, b4, b5, b6⟩,
    ⟨le_trans (le_min v1 v7) b1, le_trans b2 (max_le v2 v8)⟩,
    ⟨le_trans (le_min v3 v9) b3, le_trans b4 (max_le v4 v10)⟩,
    ⟨le_trans (le_min v5 v11) b5, le_trans b6 (max_le v6 v12)⟩⟩

theorem color_interpolation_bounds_inst :
    (min (Point.mk 0 0 ⟨1, 0, 0⟩).c.r (Point.mk 2 0 ⟨0, 1, 0⟩).c.r
        ≤ (Point.mk 1 0 (⟨1/2, 1/2, 0⟩ : ColorType)).c.r ∧
      (Point.mk 1 0 (⟨1/2, 1/2, 0⟩ : ColorType)).c.r
        ≤ max (Point.mk 0 0 ⟨1, 0, 0⟩).c.r (Point.mk 2 0 ⟨0, 1, 0⟩).c.r ∧
      min (Point.mk 0 0 ⟨1, 0, 0⟩).c.g (Point.mk 2 0 ⟨0, 1, 0⟩).c.g
        ≤ (Point.mk 1 0 (⟨1/2, 1/2, 0⟩ : ColorType)).c.g ∧
      (Point.mk 1 0 (⟨1/2, 1/2, 0⟩ : ColorType)).c.g
        ≤ max (Point.mk 0 0 ⟨1, 0, 0⟩).c.g (Point.mk 2 0 ⟨0, 1, 0⟩).c.g ∧
      min (Point.mk 0 0 ⟨1, 0, 0⟩).c.b (Point.mk 2 0 ⟨0, 1, 0⟩).c.b
        ≤ (Point.mk 1 0 (⟨1/2, 1/2, 0⟩ : ColorType)).c.b ∧
      (Point.mk 1 0 (⟨1/2, 1/2, 0⟩ : ColorType)).c.b
        ≤ max (Point.mk 0 0 ⟨1, 0, 0⟩).c.b (Point.mk 2 0 ⟨0, 1, 0⟩).c.b) ∧
    ((0 ≤ (Point.mk 1 0 (⟨1/2, 1/2, 0⟩ : ColorType)).c.r ∧
        (Point.mk 1 0 (⟨1/2, 1/2, 0⟩ : ColorType)).c.r ≤ 1) ∧
      (0 ≤ (Point.mk 1 0 (⟨1/2, 1/2, 0⟩ : ColorType)).c.g ∧
        (Point.mk 1 0 (⟨1/2, 1/2, 0⟩ : ColorType)).c.g ≤ 1) ∧
      (0 ≤ (Point.mk 1 0 (⟨1/2, 1/2, 0⟩ : ColorType)).c.b ∧
        (Point.mk 1 0 (⟨1/2, 1/2, 0⟩ : ColorType)).c.b ≤ 1)) :=
  color_interpolation_bounds ⟨0, 0, ⟨1, 0, 0⟩⟩ ⟨2, 0, ⟨0, 1, 0⟩⟩
    [⟨0, 0, ⟨1, 0, 0⟩⟩, ⟨1, 0, ⟨1/2, 1/2, 0⟩⟩, ⟨2, 0, ⟨0, 1, 0⟩⟩]
    (by norm_num [pointsOnLine, bresRun, bresLoop, mkPt, lerp])
    (by norm_num)
    ⟨1, 0, ⟨1/2, 1/2, 0⟩⟩ (by norm_num)
